import Mathlib

/-!
# wordlsp: word index, document store and completion glue

A shallow embedding of `main.go` of `daaku/wordlsp`.

* Go strings are byte sequences: `Str := List Nat`, every element a byte value.
* The `App` receiver becomes an explicit state record (`doc`, `knownWords`);
  methods that mutate it return the new state.
* Slice expressions that Go would reject at run time make the enclosing
  function return `none`.
* The logger, the handler table and the `sync.RWMutex` carry no data of the
  sequential behaviour and are not part of the state record.
* Three library facilities are outside the source tree.  `unicode.IsLetter`
  and `protocol.Position.IndexIn` are parameters of the functions that call
  them; `btree.BTreeG[string]` is represented by its ascending key sequence.
* A session is a sequence of calls (`Op`) run from `NewApp` by `App.run`.
* `textDocumentCompletion`, `wordStartUntil` and `completions` are functions
  of the state; they are also given statement by statement on `Mem`, the
  receiver together with the count of read locks held, and the two forms are
  proved to agree.
-/

namespace Wordlsp

/-! ## Strings -/

/-- A Go `string`: a finite sequence of bytes. -/
abbrev Str := List Nat

/-- A Go `rune`: a Unicode code point. -/
abbrev Rune := Nat

/-- The bytes of a string literal, as the Go compiler stores it (UTF-8). -/
def bytes (s : String) : Str :=
  (s.toList.flatMap String.utf8EncodeChar).map UInt8.toNat

/-- Go `a < b` on strings: byte-wise lexicographic comparison. -/
def strLess : Str → Str → Bool
  | [], [] => false
  | [], _ :: _ => true
  | _ :: _, [] => false
  | a :: as, b :: bs =>
    if a < b then true else if b < a then false else strLess as bs

/-- Go `strings.HasPrefix(s, prefix)`:
`len(s) >= len(prefix) && s[:len(prefix)] == prefix`. -/
def hasPrefix (s pre : Str) : Bool :=
  decide (pre.length ≤ s.length) && decide (s.take pre.length = pre)

/-- Go slice expression `s[i:]`; `none` when `i > len(s)` (run-time panic). -/
def sliceFrom (s : Str) (i : Nat) : Option Str :=
  if i ≤ s.length then some (s.drop i) else none

/-- Go slice expression `s[:j]`; `none` when `j > len(s)` (run-time panic). -/
def sliceTo (s : Str) (j : Nat) : Option Str :=
  if j ≤ s.length then some (s.take j) else none

/-- Go slice expression `s[i:j]`; `none` when `i > j` or `j > len(s)`. -/
def slice (s : Str) (i j : Nat) : Option Str :=
  if i ≤ j ∧ j ≤ s.length then some ((s.take j).drop i) else none

/-! ## The ordered word set (`btree.BTreeG[string]`) -/

/-- Modelled from the spec: `btree.BTreeG[string]` comes from
`github.com/google/btree`, which is not in the source tree.  The spec asks for
"an ordered set of distinct words (comparison = byte/lexicographic order over
the word's text)"; the tree is represented by the sequence of its keys in
ascending order, the order in which the tree's iterators visit them. -/
abbrev BTree := List Str

/-- Modelled from the spec: `btree.NewOrderedG[string](2)`, the empty tree
ordered by `<` on strings. -/
def BTree.NewOrderedG : BTree := []

/-- Modelled from the spec: `ReplaceOrInsert(item)` "inserts each word into the
set; if a word already exists, this is a no-op": the key goes to its place in
the ascending sequence, and a key equal to it (neither less than the other) is
replaced by it. -/
def BTree.ReplaceOrInsert (item : Str) : BTree → BTree
  | [] => [item]
  | k :: ks =>
    if strLess item k then item :: k :: ks
    else if strLess k item then k :: BTree.ReplaceOrInsert item ks
    else item :: ks

/-- The walk of an ascending iterator over the keys `ks`: the callback gets
each key and the state captured by its closure, and returns the new state and
whether to go on. -/
def BTree.ascend {σ : Type} (iterator : Str → σ → σ × Bool) : List Str → σ → σ
  | [], s => s
  | k :: ks, s =>
    match iterator k s with
    | (s', true) => BTree.ascend iterator ks s'
    | (s', false) => s'

/-- Modelled from the spec: `AscendGreaterOrEqual(pivot, iterator)`, "seek to
first key ≥ prefix, then walk forward": the keys less than `pivot` are skipped
and the iterator is called on the following keys in ascending order until it
returns false. -/
def BTree.AscendGreaterOrEqual {σ : Type} (t : BTree) (pivot : Str)
    (iterator : Str → σ → σ × Bool) (s : σ) : σ :=
  BTree.ascend iterator (t.dropWhile (fun k => strLess k pivot)) s

/-! ## The session object -/

/-- The fields of `App` that carry state: the document text and the word
index. -/
structure App where
  doc : Str
  knownWords : BTree
deriving DecidableEq, Repr

/-- `NewApp`: empty document text (Go zero value), empty index. -/
def NewApp : App :=
  { doc := [], knownWords := BTree.NewOrderedG }

/-- `App.addWords`: `ReplaceOrInsert` of every word, in slice order. -/
def App.addWords (a : App) (words : List Str) : App :=
  { a with knownWords := words.foldl (fun t word => BTree.ReplaceOrInsert word t) a.knownWords }

/-- The closure passed to `AscendGreaterOrEqual` by `completions`; the captured
variable `results` is the state. -/
def completionsIter (pre : Str) (item : Str) (results : List Str) : List Str × Bool :=
  if hasPrefix item pre then (results ++ [item], true) else (results, false)

/-- `App.completions`: the words collected by the iterator, starting from the
nil slice. -/
def App.completions (a : App) (pre : Str) : List Str :=
  BTree.AscendGreaterOrEqual a.knownWords pre (completionsIter pre) []

/-! ## UTF-8 decoding (`unicode/utf8`) -/

/-- `utf8.RuneError`, U+FFFD. -/
def RuneError : Rune := 0xFFFD

/-- The fourth byte of `DecodeRuneInString`: `s3` must be a continuation
byte. -/
def decodeFourth (s0 s1 s2 : Nat) : Str → Rune × Nat
  | [] => (RuneError, 1)
  | s3 :: _ =>
    if s3 < 0x80 ∨ 0xBF < s3 then (RuneError, 1)
    else ((s0 % 8) * 262144 + (s1 % 64) * 4096 + (s2 % 64) * 64 + s3 % 64, 4)

/-- The third byte of `DecodeRuneInString`: `s2` must be a continuation byte;
a sequence of size 3 ends here. -/
def decodeThird (sz s0 s1 : Nat) : Str → Rune × Nat
  | [] => (RuneError, 1)
  | s2 :: rest2 =>
    if s2 < 0x80 ∨ 0xBF < s2 then (RuneError, 1)
    else if sz ≤ 3 then ((s0 % 16) * 4096 + (s1 % 64) * 64 + s2 % 64, 3)
    else decodeFourth s0 s1 s2 rest2

/-- The second byte of `DecodeRuneInString`: `s1` must lie in the range
`accept.lo`..`accept.hi` of the lead byte; a sequence of size 2 ends here. -/
def decodeSecond (sz lo hi s0 : Nat) : Str → Rune × Nat
  | [] => (RuneError, 1)
  | s1 :: rest1 =>
    if s1 < lo ∨ hi < s1 then (RuneError, 1)
    else if sz ≤ 2 then ((s0 % 32) * 64 + s1 % 64, 2)
    else decodeThird sz s0 s1 rest1

/-- `utf8.DecodeRuneInString`: the first code point of `s` and its width in
bytes; `(RuneError, 0)` for the empty string and `(RuneError, 1)` for an
encoding that is invalid (bad lead byte, short, continuation byte out of the
accepted range, which excludes overlong forms, surrogates and values above
U+10FFFF).  `sz`, `lo`, `hi` are the entries of the tables `first` and
`acceptRanges` for the lead byte.  The masks and shifts of the Go code are
written with `%` and `*`: the shifted fields do not overlap. -/
def DecodeRuneInString : Str → Rune × Nat
  | [] => (RuneError, 0)
  | s0 :: rest =>
    if s0 < 0x80 then (s0, 1)
    else if s0 < 0xC2 ∨ 0xF4 < s0 then (RuneError, 1)
    else
      let sz := if s0 < 0xE0 then 2 else if s0 < 0xF0 then 3 else 4
      let lo := if s0 = 0xE0 then 0xA0 else if s0 = 0xF0 then 0x90 else 0x80
      let hi := if s0 = 0xED then 0x9F else if s0 = 0xF4 then 0x8F else 0xBF
      if rest.length + 1 < sz then (RuneError, 1)
      else decodeSecond sz lo hi s0 rest

/-- `utf8.RuneStart(b)`: `b&0xC0 != 0x80`, the byte is not a continuation
byte. -/
def RuneStart (b : Nat) : Bool :=
  !(decide (0x80 ≤ b) && decide (b < 0xC0))

/-- The backward scan of `DecodeLastRuneInString`,
`for start--; start >= lim; start-- { if RuneStart(s[start]) { break } }`
followed by `if start < 0 { start = 0 }`.  The argument is `start + 1` on
entry to the loop test; the result is the clamped `start`. -/
def lastRuneScan (s : Str) (lim : Nat) : Nat → Nat
  | 0 => 0
  | n + 1 =>
    if n < lim then n
    else if RuneStart (s.getD n 0) then n
    else lastRuneScan s lim n

/-- `utf8.DecodeLastRuneInString`: the last code point of `s` and its width;
`(RuneError, 0)` for the empty string, `(RuneError, 1)` when the bytes at the
end of `s` are not one valid encoding. -/
def DecodeLastRuneInString (s : Str) : Rune × Nat :=
  let stop := s.length
  if stop = 0 then (RuneError, 0)
  else
    let r := s.getD (stop - 1) 0
    if r < 0x80 then (r, 1)
    else
      let lim := stop - 4
      let start := lastRuneScan s lim (stop - 1)
      let (r, size) := DecodeRuneInString (s.drop start)
      if start + size ≠ stop then (RuneError, 1) else (r, size)

/-! ## Word extraction (`strings.FieldsFunc`) -/

/-- The iteration `for i, r := range s` of Go over a string: the byte index
and the code point of every decoding step; an invalid byte yields `RuneError`
and advances by one byte.  `i` is the index reached, `s` the text from there
on.  Every step consumes a byte, so `fuel = len(s)` steps cover the string. -/
def rangeLoop : Nat → Nat → Str → List (Nat × Rune)
  | 0, _, _ => []
  | fuel + 1, i, s =>
    match s with
    | [] => []
    | _ :: _ =>
      let (r, w) := DecodeRuneInString s
      (i, r) :: rangeLoop fuel (i + w) (s.drop w)

/-- The pairs `(i, r)` of `for i, r := range s`. -/
def rangeString (s : Str) : List (Nat × Rune) :=
  rangeLoop s.length 0 s

/-- One step of the span-finding loop of `strings.FieldsFunc`.  The state is
the spans found and `start`; a negative `start` of the Go code (no field is
open) is `none`. -/
def fieldsStep (f : Rune → Bool) (st : List (Nat × Nat) × Option Nat) (x : Nat × Rune) :
    List (Nat × Nat) × Option Nat :=
  if f x.2 then
    match st.2 with
    | some start => (st.1 ++ [(start, x.1)], none)
    | none => st
  else
    match st.2 with
    | some _ => st
    | none => (st.1, some x.1)

/-- The spans `{start, end}` recorded by `strings.FieldsFunc`, the one that
ends at the end of the string included. -/
def fieldSpans (s : Str) (f : Rune → Bool) : List (Nat × Nat) :=
  let st := (rangeString s).foldl (fieldsStep f) ([], none)
  match st.2 with
  | some start => st.1 ++ [(start, s.length)]
  | none => st.1

/-- `strings.FieldsFunc(s, f)`: the substrings `s[span.start:span.end]` between
the code points that satisfy `f`. -/
def FieldsFunc (s : Str) (f : Rune → Bool) : List Str :=
  (fieldSpans s f).map (fun sp => (s.take sp.2).drop sp.1)

/-! ## Positions (`protocol.Position`) -/

/-- `protocol.Position`: zero-based line and character (UTF-16 code unit)
offsets. -/
structure Position where
  Line : Nat
  Character : Nat
deriving DecidableEq, Repr

/-- `protocol.Range`. -/
structure Range where
  Start : Position
  End : Position
deriving DecidableEq, Repr

/-- `strings.Index(s, "\n")`. -/
def indexNewline : Str → Option Nat
  | [] => none
  | b :: bs => if b = 10 then some 0 else (indexNewline bs).map (fun k => k + 1)

/-- The byte offset at which line `row` starts, `none` when the text has fewer
lines. -/
def lineOffset : Nat → Str → Option Nat
  | 0, _ => some 0
  | row + 1, s =>
    match indexNewline s with
    | some next => (lineOffset row (s.drop (next + 1))).map (fun k => next + 1 + k)
    | none => none

/-- The column walk of `IndexIn`: `n` UTF-16 code units are still to be
counted, `remains` is the text from the current offset on.  A line feed stops
the walk, a code point of two code units counts twice and is not entered
half-way, and running out of text yields offset 0. -/
def columnWalk : Nat → Str → Nat → Nat
  | 0, _, byteOffset => byteOffset
  | n + 1, remains, byteOffset =>
    match remains with
    | [] => 0
    | _ :: _ =>
      let (r, w) := DecodeRuneInString remains
      if r = 10 then byteOffset
      else if 0x10000 ≤ r then
        match n with
        | 0 => byteOffset
        | m + 1 => columnWalk m (remains.drop w) (byteOffset + w)
      else columnWalk n (remains.drop w) (byteOffset + w)

/-- Modelled from the spec: `Position.IndexIn` belongs to the protocol package
`github.com/tliron/glsp`, which is not in the source tree.  "Positions are
specified in line/character coordinates using UTF-16 code-unit semantics ...
each position must first be converted to a byte offset by walking the text":
skip `Line` line feeds, then count `Character` code units from the start of
the line.  A line past the last one yields offset 0. -/
def Position.IndexIn (p : Position) (content : Str) : Nat :=
  match lineOffset p.Line content with
  | none => 0
  | some index => columnWalk p.Character (content.drop index) index

/-- `Range.IndexesIn`: both ends resolved against the same text. -/
def Range.IndexesIn (IndexIn : Position → Str → Nat) (r : Range) (content : Str) : Nat × Nat :=
  (IndexIn r.Start content, IndexIn r.End content)

/-- Modelled from the spec: `unicode.IsLetter` on the code points below U+0080,
where the letters are `A`..`Z` and `a`..`z`.  The Unicode tables are not in the
source tree; this stand-in is used on ASCII text only. -/
def asciiIsLetter (r : Rune) : Bool :=
  (decide (0x41 ≤ r) && decide (r ≤ 0x5A)) || (decide (0x61 ≤ r) && decide (r ≤ 0x7A))

/-! ## Handlers -/

/-- The loop of `App.wordStartUntil`.  `startP.Line` is fixed, the first
numeric argument is `startP.Character`, the second is `start`.  `none` when
the slice `a.doc[possibleStart:]` is out of range. -/
def wordStartLoop (IndexIn : Position → Str → Nat) (IsLetter : Rune → Bool) (doc : Str)
    (line : Nat) : Nat → Nat → Option Nat
  | 0, start => some start
  | character + 1, start =>
    let possibleStart := IndexIn { Line := line, Character := character + 1 } doc
    match sliceFrom doc possibleStart with
    | none => none
    | some tail =>
      let rune := (DecodeLastRuneInString tail).1
      if rune = RuneError then some start
      else if !IsLetter rune then some start
      else wordStartLoop IndexIn IsLetter doc line character possibleStart

/-- `App.wordStartUntil`: the pair `(start, end)`. -/
def App.wordStartUntil (IndexIn : Position → Str → Nat) (IsLetter : Rune → Bool) (a : App)
    (p : Position) : Option (Nat × Nat) :=
  let stop := IndexIn p a.doc
  (wordStartLoop IndexIn IsLetter a.doc p.Line p.Character stop).map (fun start => (start, stop))

/-- `App.textDocumentDidOpen`: store the text, then add its fields split at
the non-letters. -/
def App.textDocumentDidOpen (IsLetter : Rune → Bool) (a : App) (text : Str) : App :=
  let a1 : App := { a with doc := text }
  a1.addWords (FieldsFunc a1.doc (fun r => !IsLetter r))

/-- `protocol.CompletionItem`; every field but `Label` is optional. -/
structure CompletionItem where
  Label : Str
  Kind : Option Nat := none
  Tags : List Nat := []
  Detail : Option Str := none
  Documentation : Option Str := none
  Deprecated : Option Bool := none
  Preselect : Option Bool := none
  SortText : Option Str := none
  FilterText : Option Str := none
  InsertText : Option Str := none
  InsertTextFormat : Option Nat := none
  InsertTextMode : Option Nat := none
  TextEdit : Option Str := none
  AdditionalTextEdits : List Str := []
  CommitCharacters : List Str := []
  Command : Option Str := none
  Data : Option Str := none
deriving DecidableEq, Repr

/-- `App.textDocumentCompletion`: the items and the error value (`none` is
`nil`).  The outer `none` is a run-time panic of a slice expression.  The
session state is not written. -/
def App.textDocumentCompletion (IndexIn : Position → Str → Nat) (IsLetter : Rune → Bool)
    (a : App) (position : Position) : Option (List CompletionItem × Option Str) :=
  match a.wordStartUntil IndexIn IsLetter position with
  | none => none
  | some (start, stop) =>
    match slice a.doc start stop with
    | none => none
    | some pre =>
      let words := a.completions pre
      some (words.map (fun word => { Label := word }), none)

/-- The prefix `a.doc[start:end]` that `textDocumentCompletion` passes to
`completions`. -/
def App.completionPrefix (IndexIn : Position → Str → Nat) (IsLetter : Rune → Bool)
    (a : App) (position : Position) : Option Str :=
  match a.wordStartUntil IndexIn IsLetter position with
  | none => none
  | some (start, stop) => slice a.doc start stop

/-- An element of `params.ContentChanges` as the decoder of the protocol
package builds it: a range edit or a whole-document edit. -/
inductive ContentChange where
  | TextDocumentContentChangeEvent (Range : Range) (Text : Str)
  | TextDocumentContentChangeEventWhole (Text : Str)
deriving DecidableEq, Repr

/-- The body of the loop of `App.textDocumentDidChange`: the new `a.doc`.
`none` when `a.doc[:startIndex]` or `a.doc[endIndex:]` is out of range. -/
def applyChange (IndexIn : Position → Str → Nat) (doc : Str) : ContentChange → Option Str
  | .TextDocumentContentChangeEvent range text =>
    let (startIndex, endIndex) := range.IndexesIn IndexIn doc
    match sliceTo doc startIndex, sliceFrom doc endIndex with
    | some before, some after => some (before ++ text ++ after)
    | _, _ => none
  | .TextDocumentContentChangeEventWhole text => some text

/-- `App.textDocumentDidChange`: the changes applied one after the other to
`a.doc`.  Nothing else of the state is written. -/
def App.textDocumentDidChange (IndexIn : Position → Str → Nat) (a : App) :
    List ContentChange → Option App
  | [] => some a
  | change :: rest =>
    match applyChange IndexIn a.doc change with
    | none => none
    | some doc => App.textDocumentDidChange IndexIn { a with doc := doc } rest

/-! ## Notions used to state the properties -/

/-- Strictly ascending key sequence: the shape of every tree that `NewApp` and
`addWords` can build. -/
def StrictAsc (t : List Str) : Prop :=
  t.Pairwise (fun a b => strLess a b = true)

/-- The state after a sequence of `addWords` calls on a fresh `App`. -/
def afterInserts (batches : List (List Str)) : App :=
  batches.foldl App.addWords NewApp

/-- Go `a <= b` on strings. -/
def strLe (a b : Str) : Prop := strLess b a = false

instance : DecidableRel strLe := fun a b => inferInstanceAs (Decidable (strLess b a = false))

/-- The sorted, deduplicated form of a list of words, written without reference
to the index: drop the repetitions, then sort by `<=`. -/
def sortedDistinct (ws : List Str) : List Str :=
  (ws.dedup).insertionSort strLe

/-- The text as its sequence of code points, each with the bytes that encode
it; an undecodable byte is the code point `RuneError` of one byte.  `fuel`
bounds the number of code points read. -/
def codePointsLoop : Nat → Str → List (Rune × Str)
  | 0, _ => []
  | fuel + 1, s =>
    match s with
    | [] => []
    | _ :: _ =>
      let (r, w) := DecodeRuneInString s
      (r, s.take w) :: codePointsLoop fuel (s.drop w)

/-- The code points of a text. -/
def codePoints (s : Str) : List (Rune × Str) :=
  codePointsLoop s.length s

/-- The maximal runs of letters in a sequence of code points: a code point that
is not a letter is a word boundary, consecutive letters are gathered into one
word.  `cur` is the word being gathered, `none` outside a word. -/
def runsLoop (IsLetter : Rune → Bool) : List (Rune × Str) → Option Str → List Str
  | [], none => []
  | [], some word => [word]
  | (r, enc) :: rest, none =>
    if IsLetter r then runsLoop IsLetter rest (some enc) else runsLoop IsLetter rest none
  | (r, enc) :: rest, some word =>
    if IsLetter r then runsLoop IsLetter rest (some (word ++ enc))
    else word :: runsLoop IsLetter rest none

/-- The words of a text as the spec defines them: "each maximal run of
consecutive letter code points (length ≥ 1) is emitted as one word, in
left-to-right order of appearance, duplicates included". -/
def letterRuns (IsLetter : Rune → Bool) (s : Str) : List Str :=
  runsLoop IsLetter (codePoints s) none

/-- The span list that `FieldsFunc` has after its loop, with the state of the
loop as argument: an open field is closed at `n`. -/
def closeSpans (st : List (Nat × Nat) × Option Nat) (n : Nat) : List (Nat × Nat) :=
  match st.2 with
  | some start => st.1 ++ [(start, n)]
  | none => st.1

/-! ## Sessions -/

/-- The calls made on the session object: the three handlers that touch the
document or the index, and `addWords`. -/
inductive Op where
  | OpenDocument (text : Str)
  | ChangeDocument (changes : List ContentChange)
  | Complete (position : Position)
  | addWords (words : List Str)
deriving DecidableEq, Repr

/-- `textDocumentCompletion` as a step of the session: the value returned and
the state left behind.  The handler and the two methods it calls assign to no
field of `a`, so the state left behind is the state received. -/
def App.handleCompletion (IndexIn : Position → Str → Nat) (IsLetter : Rune → Bool)
    (a : App) (position : Position) : Option ((List CompletionItem × Option Str) × App) :=
  (a.textDocumentCompletion IndexIn IsLetter position).map (fun r => (r, a))

/-- The state after one call; `none` when the call panics. -/
def App.step (IndexIn : Position → Str → Nat) (IsLetter : Rune → Bool) (a : App) :
    Op → Option App
  | .OpenDocument text => some (a.textDocumentDidOpen IsLetter text)
  | .ChangeDocument changes => a.textDocumentDidChange IndexIn changes
  | .Complete position => (a.handleCompletion IndexIn IsLetter position).map Prod.snd
  | .addWords words => some (a.addWords words)

/-- The state after a sequence of calls. -/
def App.run (IndexIn : Position → Str → Nat) (IsLetter : Rune → Bool) (a : App) :
    List Op → Option App
  | [] => some a
  | op :: ops =>
    match a.step IndexIn IsLetter op with
    | none => none
    | some a1 => App.run IndexIn IsLetter a1 ops

/-- The loop of `App.wordStartUntil` with a counter: the value of `start` at
the end and the number of times the loop body was entered. -/
def wordStartLoopCount (IndexIn : Position → Str → Nat) (IsLetter : Rune → Bool) (doc : Str)
    (line : Nat) : Nat → Nat → Nat → Option (Nat × Nat)
  | 0, start, count => some (start, count)
  | character + 1, start, count =>
    let possibleStart := IndexIn { Line := line, Character := character + 1 } doc
    match sliceFrom doc possibleStart with
    | none => none
    | some tail =>
      let rune := (DecodeLastRuneInString tail).1
      if rune = RuneError then some (start, count + 1)
      else if !IsLetter rune then some (start, count + 1)
      else wordStartLoopCount IndexIn IsLetter doc line character possibleStart (count + 1)

/-- The bytes of a sequence of code points. -/
def encode (cps : List (Rune × Str)) : Str :=
  (cps.map Prod.snd).flatten

/-- The text decodes to letters only. -/
def onlyLetters (IsLetter : Rune → Bool) (s : Str) : Prop :=
  ∀ x ∈ codePoints s, IsLetter x.1 = true

/-- The text decodes to no letter. -/
def noLetter (IsLetter : Rune → Bool) (s : Str) : Prop :=
  ∀ x ∈ codePoints s, IsLetter x.1 = false

instance (IsLetter : Rune → Bool) (s : Str) : Decidable (onlyLetters IsLetter s) :=
  inferInstanceAs (Decidable (∀ x ∈ codePoints s, IsLetter x.1 = true))

instance (IsLetter : Rune → Bool) (s : Str) : Decidable (noLetter IsLetter s) :=
  inferInstanceAs (Decidable (∀ x ∈ codePoints s, IsLetter x.1 = false))

/-! ## The completion path, statement by statement -/

/-- The memory the methods of `App` run on: the fields `doc` and `knownWords`
of the receiver, and the number of read locks held on `a.knownWordsM`. -/
structure Mem where
  app : App
  readLocks : Nat
deriving DecidableEq, Repr

/-- `a.knownWordsM.RLock()`. -/
def Mem.RLock (m : Mem) : Mem :=
  { m with readLocks := m.readLocks + 1 }

/-- `a.knownWordsM.RUnlock()`. -/
def Mem.RUnlock (m : Mem) : Mem :=
  { m with readLocks := m.readLocks - 1 }

/-- `App.completions` with the memory threaded through its statements: take
the read lock, walk the tree of the receiver with the closure over `results`,
return `results`; the deferred `RUnlock` runs on return. -/
def Mem.completions (m : Mem) (pre : Str) : List Str × Mem :=
  let m1 := m.RLock
  let results := BTree.AscendGreaterOrEqual m1.app.knownWords pre (completionsIter pre) []
  (results, m1.RUnlock)

/-- The loop of `App.wordStartUntil` with the memory threaded through its
iterations; every iteration reads `a.doc` from the memory it is handed. -/
def Mem.wordStartLoop (IndexIn : Position → Str → Nat) (IsLetter : Rune → Bool)
    (line : Nat) : Nat → Nat → Mem → Option (Nat × Mem)
  | 0, start, m => some (start, m)
  | character + 1, start, m =>
    let possibleStart := IndexIn { Line := line, Character := character + 1 } m.app.doc
    match sliceFrom m.app.doc possibleStart with
    | none => none
    | some tail =>
      let rune := (DecodeLastRuneInString tail).1
      if rune = RuneError then some (start, m)
      else if !IsLetter rune then some (start, m)
      else Mem.wordStartLoop IndexIn IsLetter line character possibleStart m

/-- `App.wordStartUntil` with the memory threaded through its statements. -/
def Mem.wordStartUntil (IndexIn : Position → Str → Nat) (IsLetter : Rune → Bool) (m : Mem)
    (p : Position) : Option ((Nat × Nat) × Mem) :=
  let stop := IndexIn p m.app.doc
  match Mem.wordStartLoop IndexIn IsLetter p.Line p.Character stop m with
  | none => none
  | some (start, m1) => some ((start, stop), m1)

/-- `App.textDocumentCompletion` with the memory threaded through its
statements: `wordStartUntil`, the slice of `a.doc` as `wordStartUntil` left it,
`completions`, the items. -/
def Mem.textDocumentCompletion (IndexIn : Position → Str → Nat) (IsLetter : Rune → Bool)
    (m : Mem) (position : Position) : Option ((List CompletionItem × Option Str) × Mem) :=
  match m.wordStartUntil IndexIn IsLetter position with
  | none => none
  | some ((start, stop), m1) =>
    match slice m1.app.doc start stop with
    | none => none
    | some pre =>
      match m1.completions pre with
      | (words, m2) => some ((words.map (fun word => { Label := word }), none), m2)

/-! ## Order facts about `strLess` and `hasPrefix` -/

theorem strLess_irrefl (a : Str) : strLess a a = false := by
  induction a with
  | nil => rfl
  | cons x xs ih => simp [strLess, ih]

theorem strLess_trans : ∀ {a b c : Str}, strLess a b = true → strLess b c = true →
    strLess a c = true
  | [], [], _, h, _ => by simp [strLess] at h
  | [], _ :: _, [], _, h => by simp [strLess] at h
  | [], _ :: _, _ :: _, _, _ => by simp [strLess]
  | _ :: _, [], _, h, _ => by simp [strLess] at h
  | _ :: _, _ :: _, [], _, h => by simp [strLess] at h
  | x :: xs, y :: ys, z :: zs, h₁, h₂ => by
    simp only [strLess] at h₁ h₂ ⊢
    by_cases hxy : x < y
    · by_cases hyz : y < z
      · have : x < z := lt_trans hxy hyz
        simp [this]
      · by_cases hzy : z < y
        · simp [hyz, hzy] at h₂
        · have : y = z := by omega
          subst this
          simp [hxy]
    · by_cases hyx : y < x
      · simp [hxy, hyx] at h₁
      · have hxy' : x = y := by omega
        subst hxy'
        simp only [hxy, if_false] at h₁
        by_cases hxz : x < z
        · simp [hxz]
        · by_cases hzx : z < x
          · simp [hxz, hzx] at h₂
          · simp only [hxz, hzx, if_false] at h₂ ⊢
            exact strLess_trans h₁ h₂

theorem strLess_asymm {a b : Str} (h : strLess a b = true) : strLess b a = false := by
  by_contra h'
  have h'' : strLess b a = true := by simpa using h'
  have := strLess_trans h h''
  simp [strLess_irrefl] at this

theorem strLess_connex : ∀ {a b : Str}, strLess a b = false → strLess b a = false → a = b
  | [], [], _, _ => rfl
  | [], _ :: _, h, _ => by simp [strLess] at h
  | _ :: _, [], _, h => by simp [strLess] at h
  | x :: xs, y :: ys, h₁, h₂ => by
    simp only [strLess] at h₁ h₂
    by_cases hxy : x < y
    · simp [hxy] at h₁
    · by_cases hyx : y < x
      · simp [hyx] at h₂
      · have : x = y := by omega
        subst this
        simp only [hxy, if_false] at h₁ h₂
        rw [strLess_connex h₁ h₂]

theorem hasPrefix_nil (s : Str) : hasPrefix s [] = true := by
  simp [hasPrefix]

theorem hasPrefix_nil_cons (b : Nat) (p : Str) : hasPrefix [] (b :: p) = false := by
  simp [hasPrefix]

theorem hasPrefix_cons (a b : Nat) (s p : Str) :
    hasPrefix (a :: s) (b :: p) = (decide (a = b) && hasPrefix s p) := by
  simp only [hasPrefix, List.length_cons, List.take_succ_cons, List.cons.injEq,
    Nat.add_le_add_iff_right]
  by_cases h1 : p.length ≤ s.length <;> by_cases h2 : a = b <;>
    by_cases h3 : List.take p.length s = p <;> simp [h1, h2, h3]

theorem hasPrefix_iff (s p : Str) : hasPrefix s p = true ↔ p <+: s := by
  induction p generalizing s with
  | nil => simp [hasPrefix_nil]
  | cons b p ih =>
    cases s with
    | nil => simp [hasPrefix_nil_cons]
    | cons a s =>
      rw [hasPrefix_cons, List.cons_prefix_cons]
      simp only [Bool.and_eq_true, decide_eq_true_eq, ih]
      exact ⟨fun h => ⟨h.1.symm, h.2⟩, fun h => ⟨h.1.symm, h.2⟩⟩

/-- A key with the prefix is never below the prefix. -/
theorem not_strLess_of_hasPrefix : ∀ (s p : Str), hasPrefix s p = true → strLess s p = false
  | [], [], _ => rfl
  | _ :: _, [], _ => rfl
  | [], _ :: _, h => by simp [hasPrefix_nil_cons] at h
  | a :: s, b :: p, h => by
    rw [hasPrefix_cons] at h
    simp only [Bool.and_eq_true, decide_eq_true_eq] at h
    obtain ⟨rfl, h⟩ := h
    simp [strLess, not_strLess_of_hasPrefix s p h]

/-- Contiguity: a key at or above the prefix that does not carry it lies above
every key that does. -/
theorem strLess_of_hasPrefix_of_not : ∀ (p x y : Str), strLess x p = false →
    hasPrefix x p = false → hasPrefix y p = true → strLess y x = true
  | [], x, _, _, h, _ => by simp [hasPrefix_nil] at h
  | _ :: _, _, [], _, _, h => by simp [hasPrefix_nil_cons] at h
  | _ :: _, [], _ :: _, h, _, _ => by simp [strLess] at h
  | c :: ps, d :: xs, e :: ys, hx, hnx, hy => by
    rw [hasPrefix_cons] at hy hnx
    simp only [Bool.and_eq_true, decide_eq_true_eq] at hy
    obtain ⟨rfl, hy⟩ := hy
    simp only [strLess] at hx ⊢
    by_cases hde : d < e
    · simp [hde] at hx
    · by_cases hed : e < d
      · simp [hed]
      · have : d = e := by omega
        subst this
        simp only [hde, if_false] at hx ⊢
        simp only [decide_True, Bool.true_and] at hnx
        exact strLess_of_hasPrefix_of_not ps xs ys hx hnx hy

/-! ## The index is an ascending sequence without repetition -/

theorem mem_ReplaceOrInsert (w x : Str) (t : BTree) (ht : StrictAsc t) :
    x ∈ BTree.ReplaceOrInsert w t ↔ x = w ∨ x ∈ t := by
  induction t with
  | nil => simp [BTree.ReplaceOrInsert]
  | cons k ks ih =>
    have hks : StrictAsc ks := (List.pairwise_cons.1 ht).2
    simp only [BTree.ReplaceOrInsert]
    split_ifs with h1 h2
    · simp
    · simp only [List.mem_cons, ih hks]
      tauto
    · have : w = k := strLess_connex (by simpa using h1) (by simpa using h2)
      subst this
      simp

theorem strictAsc_ReplaceOrInsert (w : Str) (t : BTree) (ht : StrictAsc t) :
    StrictAsc (BTree.ReplaceOrInsert w t) := by
  induction t with
  | nil => simp [BTree.ReplaceOrInsert, StrictAsc]
  | cons k ks ih =>
    obtain ⟨hk, hks⟩ := List.pairwise_cons.1 ht
    simp only [BTree.ReplaceOrInsert]
    split_ifs with h1 h2
    · refine List.pairwise_cons.2 ⟨?_, ht⟩
      intro b hb
      rcases List.mem_cons.1 hb with rfl | hb
      · exact h1
      · exact strLess_trans h1 (hk b hb)
    · refine List.pairwise_cons.2 ⟨?_, ih hks⟩
      intro b hb
      rcases (mem_ReplaceOrInsert w b ks hks).1 hb with rfl | hb
      · exact h2
      · exact hk b hb
    · have : w = k := strLess_connex (by simpa using h1) (by simpa using h2)
      subst this
      exact ht

theorem strictAsc_insertAll (ws : List Str) (t : BTree) (ht : StrictAsc t) :
    StrictAsc (ws.foldl (fun t word => BTree.ReplaceOrInsert word t) t) := by
  induction ws generalizing t with
  | nil => exact ht
  | cons w ws ih => exact ih _ (strictAsc_ReplaceOrInsert w t ht)

theorem mem_insertAll (ws : List Str) (t : BTree) (ht : StrictAsc t) (x : Str) :
    x ∈ ws.foldl (fun t word => BTree.ReplaceOrInsert word t) t ↔ x ∈ ws ∨ x ∈ t := by
  induction ws generalizing t with
  | nil => simp
  | cons w ws ih =>
    simp only [List.foldl_cons, List.mem_cons]
    rw [ih _ (strictAsc_ReplaceOrInsert w t ht), mem_ReplaceOrInsert w x t ht]
    tauto

theorem strictAsc_addWords (a : App) (ws : List Str) (h : StrictAsc a.knownWords) :
    StrictAsc (a.addWords ws).knownWords :=
  strictAsc_insertAll ws a.knownWords h

theorem mem_addWords (a : App) (ws : List Str) (h : StrictAsc a.knownWords) (x : Str) :
    x ∈ (a.addWords ws).knownWords ↔ x ∈ ws ∨ x ∈ a.knownWords :=
  mem_insertAll ws a.knownWords h x

theorem foldl_addWords_inv (batches : List (List Str)) (a : App) (h : StrictAsc a.knownWords) :
    StrictAsc (batches.foldl App.addWords a).knownWords ∧
    ∀ x, x ∈ (batches.foldl App.addWords a).knownWords ↔ x ∈ batches.flatten ∨ x ∈ a.knownWords := by
  induction batches generalizing a with
  | nil => simp [h]
  | cons ws rest ih =>
    obtain ⟨h1, h2⟩ := ih (a.addWords ws) (strictAsc_addWords a ws h)
    refine ⟨h1, fun x => ?_⟩
    simp only [List.foldl_cons, List.flatten_cons, List.mem_append]
    rw [h2 x, mem_addWords a ws h x]
    tauto

theorem strictAsc_afterInserts (batches : List (List Str)) :
    StrictAsc (afterInserts batches).knownWords :=
  (foldl_addWords_inv batches NewApp List.Pairwise.nil).1

theorem mem_afterInserts (batches : List (List Str)) (x : Str) :
    x ∈ (afterInserts batches).knownWords ↔ x ∈ batches.flatten := by
  have := (foldl_addWords_inv batches NewApp List.Pairwise.nil).2 x
  simpa [NewApp, BTree.NewOrderedG] using this

/-! ## `completions` as a filter of the key sequence -/

theorem ascend_completionsIter (pre : Str) (ks acc : List Str) :
    BTree.ascend (completionsIter pre) ks acc
      = acc ++ ks.takeWhile (fun k => hasPrefix k pre) := by
  induction ks generalizing acc with
  | nil => simp [BTree.ascend]
  | cons k ks ih =>
    by_cases h : hasPrefix k pre = true
    · simp [BTree.ascend, completionsIter, h, ih, List.takeWhile_cons]
    · simp [BTree.ascend, completionsIter, h, List.takeWhile_cons]

theorem completions_eq_takeWhile (a : App) (pre : Str) :
    a.completions pre
      = (a.knownWords.dropWhile (fun k => strLess k pre)).takeWhile (fun k => hasPrefix k pre) := by
  simp [App.completions, BTree.AscendGreaterOrEqual, ascend_completionsIter]

/-- On an ascending run of keys none of which is below the prefix, walking
until the first mismatch collects every key with the prefix. -/
theorem takeWhile_eq_filter_of_ge (pre : Str) (l : List Str) (hl : StrictAsc l)
    (hge : ∀ x ∈ l, strLess x pre = false) :
    l.takeWhile (fun k => hasPrefix k pre) = l.filter (fun k => hasPrefix k pre) := by
  induction l with
  | nil => rfl
  | cons x xs ih =>
    obtain ⟨hx, hxs⟩ := List.pairwise_cons.1 hl
    have hge' : ∀ y ∈ xs, strLess y pre = false := fun y hy => hge y (List.mem_cons_of_mem _ hy)
    by_cases h : hasPrefix x pre = true
    · simp [List.takeWhile_cons, List.filter_cons, h, ih hxs hge']
    · have hnone : ∀ y ∈ xs, hasPrefix y pre = false := by
        intro y hy
        by_contra hy'
        have hy'' : hasPrefix y pre = true := by simpa using hy'
        have h1 := strLess_of_hasPrefix_of_not pre x y (hge x (List.mem_cons_self _ _))
          (by simpa using h) hy''
        have h2 := strLess_asymm (hx y hy)
        simp [h1] at h2
      have hf : xs.filter (fun k => hasPrefix k pre) = [] := by
        rw [List.filter_eq_nil_iff]
        intro y hy
        simp [hnone y hy]
      simp [List.takeWhile_cons, List.filter_cons, h, hf]

theorem seek_walk_eq_filter (pre : Str) (t : List Str) (ht : StrictAsc t) :
    (t.dropWhile (fun k => strLess k pre)).takeWhile (fun k => hasPrefix k pre)
      = t.filter (fun k => hasPrefix k pre) := by
  induction t with
  | nil => rfl
  | cons k ks ih =>
    obtain ⟨hk, hks⟩ := List.pairwise_cons.1 ht
    by_cases h : strLess k pre = true
    · have hp : hasPrefix k pre = false := by
        by_contra hp
        have := not_strLess_of_hasPrefix k pre (by simpa using hp)
        simp [h] at this
      simp [List.dropWhile_cons, List.filter_cons, h, hp, ih hks]
    · have hkf : strLess k pre = false := by simpa using h
      rw [List.dropWhile_cons_of_neg (by simpa using h)]
      apply takeWhile_eq_filter_of_ge pre (k :: ks) ht
      intro x hx
      rcases List.mem_cons.1 hx with rfl | hx
      · exact hkf
      · by_contra hlt
        have hlt' : strLess x pre = true := by simpa using hlt
        have := strLess_trans (hk x hx) hlt'
        simp [hkf] at this

theorem completions_eq_filter (a : App) (pre : Str) (h : StrictAsc a.knownWords) :
    a.completions pre = a.knownWords.filter (fun k => hasPrefix k pre) := by
  rw [completions_eq_takeWhile, seek_walk_eq_filter pre a.knownWords h]

/-! ## Claims on the word index -/

instance : IsTotal Str strLe :=
  ⟨fun a b => by
    unfold strLe
    by_cases h : strLess b a = true
    · exact Or.inr (strLess_asymm h)
    · exact Or.inl (by simpa using h)⟩

instance : IsTrans Str strLe :=
  ⟨fun a b c hab hbc => by
    unfold strLe at *
    by_contra h
    have hca : strLess c a = true := by simpa using h
    by_cases hbc1 : strLess b c = true
    · have := strLess_trans hbc1 hca
      simp [this] at hab
    · have hbc' : b = c := strLess_connex (by simpa using hbc1) hbc
      subst hbc'
      simp [hca] at hab⟩

instance : IsAntisymm Str strLe :=
  ⟨fun _ _ hab hba => strLess_connex hba hab⟩

theorem StrictAsc.nodup {t : List Str} (h : StrictAsc t) : t.Nodup := by
  unfold StrictAsc at h
  refine List.Pairwise.imp ?_ h
  intro a b hab heq
  subst heq
  simp [strLess_irrefl] at hab

theorem StrictAsc.sorted_le {t : List Str} (h : StrictAsc t) : t.Sorted strLe := by
  unfold StrictAsc at h
  exact List.Pairwise.imp (fun hab => strLess_asymm hab) h

theorem knownWords_perm_dedup (batches : List (List Str)) :
    (afterInserts batches).knownWords.Perm batches.flatten.dedup := by
  rw [List.perm_ext_iff_of_nodup (strictAsc_afterInserts batches).nodup (List.nodup_dedup _)]
  intro x
  rw [mem_afterInserts, List.mem_dedup]

theorem completions_nil (a : App) (h : StrictAsc a.knownWords) :
    a.completions [] = a.knownWords := by
  rw [completions_eq_filter a [] h]
  simp [hasPrefix_nil]

/-- C1: after any sequence of `addWords` calls on a fresh index, a string is in
`completions(p)` exactly when it was inserted and starts with `p`; the keys
with the prefix form one contiguous run of the ascending key sequence, which
begins where the keys below `p` end and is returned whole. -/
theorem completions_prefix_exact (batches : List (List Str)) (p w : Str) :
    (w ∈ (afterInserts batches).completions p ↔ (w ∈ batches.flatten ∧ p <+: w)) ∧
    ∃ before after : List Str,
      (afterInserts batches).knownWords
        = before ++ (afterInserts batches).completions p ++ after ∧
      (∀ x ∈ before, strLess x p = true) ∧ (∀ x ∈ after, ¬ p <+: x) := by
  have hs := strictAsc_afterInserts batches
  constructor
  · rw [completions_eq_filter _ p hs, List.mem_filter, mem_afterInserts, hasPrefix_iff]
  · set t := (afterInserts batches).knownWords with ht
    refine ⟨t.takeWhile (fun k => strLess k p),
      (t.dropWhile (fun k => strLess k p)).dropWhile (fun k => hasPrefix k p), ?_, ?_, ?_⟩
    · rw [completions_eq_takeWhile, List.append_assoc, List.takeWhile_append_dropWhile,
        List.takeWhile_append_dropWhile]
    · intro x hx
      exact @List.mem_takeWhile_imp Str (fun k => strLess k p) t x hx
    · intro x hx hpx
      have hfil := seek_walk_eq_filter p t hs
      have hsplit : t = t.takeWhile (fun k => strLess k p)
          ++ ((t.dropWhile (fun k => strLess k p)).takeWhile (fun k => hasPrefix k p)
          ++ (t.dropWhile (fun k => strLess k p)).dropWhile (fun k => hasPrefix k p)) := by
        rw [List.takeWhile_append_dropWhile, List.takeWhile_append_dropWhile]
      have hlen := congrArg List.length hfil
      rw [hsplit] at hlen
      simp only [List.filter_append, List.length_append] at hlen
      have htw : ((t.dropWhile (fun k => strLess k p)).takeWhile (fun k => hasPrefix k p)).filter
          (fun k => hasPrefix k p)
          = (t.dropWhile (fun k => strLess k p)).takeWhile (fun k => hasPrefix k p) := by
        rw [List.filter_eq_self]
        intro y hy
        exact @List.mem_takeWhile_imp Str (fun k => hasPrefix k p) _ y hy
      rw [← hsplit] at hlen
      rw [htw] at hlen
      have hzero : (((t.dropWhile (fun k => strLess k p)).dropWhile
          (fun k => hasPrefix k p)).filter (fun k => hasPrefix k p)).length = 0 := by omega
      have hnil := List.length_eq_zero.1 hzero
      rw [List.filter_eq_nil_iff] at hnil
      exact hnil x hx ((hasPrefix_iff x p).2 hpx)

/-- C2: `completions(p)` is strictly ascending, holds every key of the index
that has the prefix (as many as there are distinct inserted words with the
prefix, no limit), and on the index of `cat`, `car`, `card` the prefix `ca`
gives `car`, `card`, `cat`. -/
theorem completions_ascending_untruncated (batches : List (List Str)) (p : Str) :
    StrictAsc ((afterInserts batches).completions p) ∧
    (afterInserts batches).completions p
      = (afterInserts batches).knownWords.filter (fun w => hasPrefix w p) ∧
    ((afterInserts batches).completions p).length
      = (batches.flatten.dedup.filter (fun w => hasPrefix w p)).length ∧
    (afterInserts [[bytes "cat", bytes "car", bytes "card"]]).completions (bytes "ca")
      = [bytes "car", bytes "card", bytes "cat"] := by
  have hs := strictAsc_afterInserts batches
  have hf := completions_eq_filter (afterInserts batches) p hs
  refine ⟨?_, hf, ?_, by decide⟩
  · rw [hf]
    exact List.Pairwise.sublist (List.filter_sublist _) hs
  · rw [hf]
    exact ((knownWords_perm_dedup batches).filter _).length_eq

/-- C3: after any sequence of `addWords` calls on a fresh index,
`completions("")` is the sorted, deduplicated concatenation of the inserted
lists: strictly ascending and with exactly the inserted words as elements. -/
theorem completions_empty_sortedDistinct (batches : List (List Str)) :
    (afterInserts batches).completions [] = sortedDistinct batches.flatten ∧
    StrictAsc ((afterInserts batches).completions []) ∧
    ∀ w, w ∈ (afterInserts batches).completions [] ↔ w ∈ batches.flatten := by
  have hs := strictAsc_afterInserts batches
  rw [completions_nil _ hs]
  refine ⟨?_, hs, fun w => mem_afterInserts batches w⟩
  unfold sortedDistinct
  apply List.eq_of_perm_of_sorted _ hs.sorted_le (List.sorted_insertionSort strLe _)
  exact (knownWords_perm_dedup batches).trans (List.perm_insertionSort strLe _).symm

/-! ## Word extraction is the list of maximal letter runs -/

theorem decodeFourth_width_pos (s0 s1 s2 : Nat) (s : Str) : 1 ≤ (decodeFourth s0 s1 s2 s).2 := by
  cases s with
  | nil => simp [decodeFourth]
  | cons s3 rest =>
    simp only [decodeFourth]
    split_ifs <;> simp

theorem decodeThird_width_pos (sz s0 s1 : Nat) (s : Str) : 1 ≤ (decodeThird sz s0 s1 s).2 := by
  cases s with
  | nil => simp [decodeThird]
  | cons s2 rest =>
    simp only [decodeThird]
    split_ifs
    · simp
    · simp
    · exact decodeFourth_width_pos s0 s1 s2 rest

theorem decodeSecond_width_pos (sz lo hi s0 : Nat) (s : Str) :
    1 ≤ (decodeSecond sz lo hi s0 s).2 := by
  cases s with
  | nil => simp [decodeSecond]
  | cons s1 rest =>
    simp only [decodeSecond]
    split_ifs
    · simp
    · simp
    · exact decodeThird_width_pos sz s0 s1 rest

theorem DecodeRuneInString_width_pos (b : Nat) (bs : Str) :
    1 ≤ (DecodeRuneInString (b :: bs)).2 := by
  simp only [DecodeRuneInString]
  split_ifs
  all_goals first
    | exact decodeSecond_width_pos _ _ _ b bs
    | exact Nat.le_refl 1

theorem fieldSpans_eq (s : Str) (f : Rune → Bool) :
    fieldSpans s f = closeSpans ((rangeString s).foldl (fieldsStep f) ([], none)) s.length := by
  unfold fieldSpans closeSpans
  rfl

theorem slice_extend (s : Str) (start i w : Nat) (hsi : start ≤ i) (hi : i ≤ s.length) :
    (s.take i).drop start ++ (s.drop i).take w = (s.take (i + w)).drop start := by
  rw [List.take_add, List.drop_append_of_le_length (by simp [hi, hsi])]

theorem slice_start (s : Str) (i w : Nat) (hi : i ≤ s.length) :
    (s.drop i).take w = (s.take (i + w)).drop i := by
  rw [List.take_add]
  exact (List.drop_left' (by simp [hi])).symm

theorem fields_loop_done (IsLetter : Rune → Bool) (s : Str) (i : Nat)
    (spans : List (Nat × Nat)) (st : Option Nat) (hi : s.length ≤ i) :
    (closeSpans (spans, st) s.length).map (fun sp => (s.take sp.2).drop sp.1)
      = spans.map (fun sp => (s.take sp.2).drop sp.1)
        ++ runsLoop IsLetter [] (st.map (fun start => (s.take i).drop start)) := by
  cases st with
  | none => simp [closeSpans, runsLoop]
  | some start => simp [closeSpans, runsLoop, List.take_of_length_le hi]

theorem fields_loop_eq_runs (IsLetter : Rune → Bool) (s : Str) :
    ∀ (fuel i : Nat) (rem : Str) (spans : List (Nat × Nat)) (st : Option Nat),
      s.drop i = rem → rem.length ≤ fuel → (∀ start, st = some start → start ≤ i) →
      (closeSpans ((rangeLoop fuel i rem).foldl (fieldsStep (fun r => !IsLetter r)) (spans, st))
          s.length).map (fun sp => (s.take sp.2).drop sp.1)
        = spans.map (fun sp => (s.take sp.2).drop sp.1)
          ++ runsLoop IsLetter (codePointsLoop fuel rem)
              (st.map (fun start => (s.take i).drop start)) := by
  intro fuel
  induction fuel with
  | zero =>
    intro i rem spans st hrem hfuel _
    have hnil : rem = [] := List.length_eq_zero.1 (Nat.le_zero.1 hfuel)
    subst hnil
    simpa [rangeLoop, codePointsLoop] using
      fields_loop_done IsLetter s i spans st (List.drop_eq_nil_iff.1 hrem)
  | succ fuel ih =>
    intro i rem spans st hrem hfuel hst
    cases rem with
    | nil =>
      simpa [rangeLoop, codePointsLoop] using
        fields_loop_done IsLetter s i spans st (List.drop_eq_nil_iff.1 hrem)
    | cons b bs =>
      have hw := DecodeRuneInString_width_pos b bs
      have hilt : i < s.length := by
        have := congrArg List.length hrem
        simp at this
        omega
      have hdrop : s.drop (i + (DecodeRuneInString (b :: bs)).2)
          = (b :: bs).drop (DecodeRuneInString (b :: bs)).2 := by
        rw [← hrem, List.drop_drop, Nat.add_comm]
      have hfuel' : ((b :: bs).drop (DecodeRuneInString (b :: bs)).2).length ≤ fuel := by
        simp only [List.length_drop, List.length_cons] at hfuel ⊢
        omega
      simp only [rangeLoop, codePointsLoop, List.foldl_cons]
      by_cases hl : IsLetter (DecodeRuneInString (b :: bs)).1 = true
      · cases st with
        | none =>
          have hstep : fieldsStep (fun r => !IsLetter r) (spans, none)
              (i, (DecodeRuneInString (b :: bs)).1) = (spans, some i) := by
            simp [fieldsStep, hl]
          rw [hstep, ih _ _ spans (some i) hdrop hfuel' (by intro start h; cases h; omega)]
          simp only [runsLoop, hl, if_true, Option.map_some']
          rw [← hrem, slice_start s i _ (le_of_lt hilt)]
        | some start =>
          have hstep : fieldsStep (fun r => !IsLetter r) (spans, some start)
              (i, (DecodeRuneInString (b :: bs)).1) = (spans, some start) := by
            simp [fieldsStep, hl]
          have hsi : start ≤ i := hst start rfl
          rw [hstep, ih _ _ spans (some start) hdrop hfuel' (by intro x h; cases h; omega)]
          simp only [runsLoop, hl, if_true, Option.map_some']
          rw [← hrem, slice_extend s start i _ hsi (le_of_lt hilt)]
      · have hl' : IsLetter (DecodeRuneInString (b :: bs)).1 = false := by simpa using hl
        cases st with
        | none =>
          have hstep : fieldsStep (fun r => !IsLetter r) (spans, none)
              (i, (DecodeRuneInString (b :: bs)).1) = (spans, none) := by
            simp [fieldsStep, hl']
          rw [hstep, ih _ _ spans none hdrop hfuel' (by intro x h; cases h)]
          simp [runsLoop, hl']
        | some start =>
          have hstep : fieldsStep (fun r => !IsLetter r) (spans, some start)
              (i, (DecodeRuneInString (b :: bs)).1) = (spans ++ [(start, i)], none) := by
            simp [fieldsStep, hl']
          rw [hstep, ih _ _ (spans ++ [(start, i)]) none hdrop hfuel' (by intro x h; cases h)]
          simp [runsLoop, hl']

/-- `strings.FieldsFunc` with the separator "not a letter" returns the maximal
letter runs of the text. -/
theorem FieldsFunc_eq_letterRuns (IsLetter : Rune → Bool) (s : Str) :
    FieldsFunc s (fun r => !IsLetter r) = letterRuns IsLetter s := by
  unfold FieldsFunc letterRuns codePoints
  rw [fieldSpans_eq]
  unfold rangeString
  have := fields_loop_eq_runs IsLetter s s.length 0 s [] none rfl (le_refl _) (by intro x h; cases h)
  simpa using this

/-! ## Claims on the document store and the cursor token -/

/-- C4: `textDocumentDidChange` writes the text only.  With `cat dog` opened,
the range edit of characters 0-3 to `bat` leaves the text `bat dog`, whose
extraction contains `bat`, while the index still holds `cat` and `dog` only. -/
theorem didChange_leaves_index :
    ((NewApp.textDocumentDidOpen asciiIsLetter (bytes "cat dog")).textDocumentDidChange
        Position.IndexIn
        [.TextDocumentContentChangeEvent ⟨⟨0, 0⟩, ⟨0, 3⟩⟩ (bytes "bat")]).map
        (fun a => (a.doc, a.completions []))
      = some (bytes "bat dog", [bytes "cat", bytes "dog"]) ∧
    bytes "bat" ∈ FieldsFunc (bytes "bat dog") (fun r => !asciiIsLetter r) ∧
    bytes "bat" ∉ [bytes "cat", bytes "dog"] := by
  decide

/-- C5: on `the quick brown fox` with the cursor at line 0, character 3,
`wordStartUntil` returns `(1, 3)`: the prefix queried is `he` and the
completion list is empty. -/
theorem wordStartUntil_after_the :
    (NewApp.textDocumentDidOpen asciiIsLetter (bytes "the quick brown fox")).wordStartUntil
        Position.IndexIn asciiIsLetter ⟨0, 3⟩ = some (1, 3) ∧
    (NewApp.textDocumentDidOpen asciiIsLetter (bytes "the quick brown fox")).completionPrefix
        Position.IndexIn asciiIsLetter ⟨0, 3⟩ = some (bytes "he") ∧
    (NewApp.textDocumentDidOpen asciiIsLetter (bytes "the quick brown fox")).textDocumentCompletion
        Position.IndexIn asciiIsLetter ⟨0, 3⟩ = some ([], none) := by
  decide

/-- C6: on `the quick brown fox` with the cursor at line 0, character 4 (after
the space), `wordStartUntil` returns `(1, 4)`: the prefix queried is `he `
and the completion list is empty. -/
theorem wordStartUntil_after_space :
    (NewApp.textDocumentDidOpen asciiIsLetter (bytes "the quick brown fox")).wordStartUntil
        Position.IndexIn asciiIsLetter ⟨0, 4⟩ = some (1, 4) ∧
    (NewApp.textDocumentDidOpen asciiIsLetter (bytes "the quick brown fox")).completionPrefix
        Position.IndexIn asciiIsLetter ⟨0, 4⟩ = some (bytes "he ") ∧
    (NewApp.textDocumentDidOpen asciiIsLetter (bytes "the quick brown fox")).textDocumentCompletion
        Position.IndexIn asciiIsLetter ⟨0, 4⟩ = some ([], none) := by
  decide

theorem didChange_append_aux (IndexIn : Position → Str → Nat) (xs ys : List ContentChange)
    (a : App) :
    a.textDocumentDidChange IndexIn (xs ++ ys)
      = (a.textDocumentDidChange IndexIn xs).bind (fun a1 => a1.textDocumentDidChange IndexIn ys) := by
  induction xs generalizing a with
  | nil => simp [App.textDocumentDidChange]
  | cons x xs ih =>
    simp only [List.cons_append, App.textDocumentDidChange]
    cases h : applyChange IndexIn a.doc x with
    | none => simp
    | some d => simp [ih]

/-- C7: a range edit whose ends resolve against the text `d` before the edit to
offsets `s <= e <= len(d)` makes the text `d[:s] ++ r ++ d[e:]`; the bytes before
`s` and from `e` on are kept, and the length is `len(d) - (e - s) + len(r)`. -/
theorem rangeEdit_splices (IndexIn : Position → Str → Nat) (a : App) (range : Range)
    (r : Str) (s e : Nat) (hs : IndexIn range.Start a.doc = s) (he : IndexIn range.End a.doc = e)
    (hse : s ≤ e) (hed : e ≤ a.doc.length) :
    a.textDocumentDidChange IndexIn [.TextDocumentContentChangeEvent range r]
      = some { a with doc := a.doc.take s ++ r ++ a.doc.drop e } ∧
    (a.doc.take s ++ r ++ a.doc.drop e).take s = a.doc.take s ∧
    (a.doc.take s ++ r ++ a.doc.drop e).drop (s + r.length) = a.doc.drop e ∧
    (a.doc.take s ++ r ++ a.doc.drop e).length = a.doc.length - (e - s) + r.length := by
  have hsd : s ≤ a.doc.length := le_trans hse hed
  have htl : (a.doc.take s).length = s := by simp [hsd]
  refine ⟨?_, ?_, ?_, ?_⟩
  · simp [App.textDocumentDidChange, applyChange, Range.IndexesIn, hs, he, sliceTo, sliceFrom,
      hsd, hed]
  · rw [List.append_assoc, List.take_append_of_le_length (by omega)]
    rw [List.take_take]
    simp
  · have hl : s + r.length = (a.doc.take s ++ r).length := by simp [htl]
    rw [hl, List.drop_left]
  · simp only [List.length_append, List.length_take, List.length_drop]
    omega

/-- Witness of C7: in `cat dog` the positions 0:0 and 0:3 resolve to the
offsets 0 and 3, and replacing that range by `bat` gives `bat dog`. -/
theorem rangeEdit_splices_witness :
    Position.IndexIn ⟨0, 0⟩ (bytes "cat dog") = 0 ∧
    Position.IndexIn ⟨0, 3⟩ (bytes "cat dog") = 3 ∧
    (0 ≤ 3 ∧ 3 ≤ (bytes "cat dog").length) ∧
    (NewApp.textDocumentDidOpen asciiIsLetter (bytes "cat dog")).textDocumentDidChange
        Position.IndexIn [.TextDocumentContentChangeEvent ⟨⟨0, 0⟩, ⟨0, 3⟩⟩ (bytes "bat")]
      = some { doc := bytes "bat dog", knownWords := [bytes "cat", bytes "dog"] } :=
  ⟨by decide, by decide, by decide,
    (rangeEdit_splices Position.IndexIn
      (NewApp.textDocumentDidOpen asciiIsLetter (bytes "cat dog"))
      ⟨⟨0, 0⟩, ⟨0, 3⟩⟩ (bytes "bat") 0 3 (by decide) (by decide) (by decide) (by decide)).1⟩

/-- C8: a whole-document edit alone sets the text to `t` whatever the text was,
and a sequence of edits that ends in a whole-document edit with text `t` ends,
whenever the edits before it go through, with the text `t`; the index is not
touched. -/
theorem wholeEdit_sets_text (IndexIn : Position → Str → Nat) (a : App) (t : Str)
    (changes : List ContentChange) :
    a.textDocumentDidChange IndexIn [.TextDocumentContentChangeEventWhole t]
      = some { doc := t, knownWords := a.knownWords } ∧
    a.textDocumentDidChange IndexIn (changes ++ [.TextDocumentContentChangeEventWhole t])
      = (a.textDocumentDidChange IndexIn changes).map
          (fun a1 => { doc := t, knownWords := a1.knownWords }) := by
  constructor
  · simp [App.textDocumentDidChange, applyChange]
  · rw [didChange_append_aux]
    cases a.textDocumentDidChange IndexIn changes with
    | none => rfl
    | some a1 => simp [App.textDocumentDidChange, applyChange]

/-- C9: the edits are applied in order, each to the text left by the one
before: a concatenated sequence acts as its first part followed by its second
part on the resulting state, the empty sequence changes nothing, and a range
edit after other edits resolves its positions against the text they produced
(inserting `xx` at 0 and then replacing characters 2-3 turns `ab` into
`xxYb`). -/
theorem didChange_sequential (IndexIn : Position → Str → Nat) (a : App)
    (xs ys : List ContentChange) (range : Range) (text : Str) :
    a.textDocumentDidChange IndexIn (xs ++ ys)
      = (a.textDocumentDidChange IndexIn xs).bind
          (fun a1 => a1.textDocumentDidChange IndexIn ys) ∧
    a.textDocumentDidChange IndexIn [] = some a ∧
    a.textDocumentDidChange IndexIn (xs ++ [.TextDocumentContentChangeEvent range text])
      = (a.textDocumentDidChange IndexIn xs).bind (fun a1 =>
          match sliceTo a1.doc (IndexIn range.Start a1.doc),
                sliceFrom a1.doc (IndexIn range.End a1.doc) with
          | some before, some after =>
            some { doc := before ++ text ++ after, knownWords := a1.knownWords }
          | _, _ => none) ∧
    ({ doc := bytes "ab", knownWords := [] } : App).textDocumentDidChange Position.IndexIn
        [.TextDocumentContentChangeEvent ⟨⟨0, 0⟩, ⟨0, 0⟩⟩ (bytes "xx"),
         .TextDocumentContentChangeEvent ⟨⟨0, 2⟩, ⟨0, 3⟩⟩ (bytes "Y")]
      = some { doc := bytes "xxYb", knownWords := [] } := by
  refine ⟨didChange_append_aux IndexIn xs ys a, rfl, ?_, by decide⟩
  rw [didChange_append_aux]
  cases a.textDocumentDidChange IndexIn xs with
  | none => rfl
  | some a1 =>
    simp only [Option.some_bind, App.textDocumentDidChange, applyChange, Range.IndexesIn]
    cases sliceTo a1.doc (IndexIn range.Start a1.doc) <;>
      cases sliceFrom a1.doc (IndexIn range.End a1.doc) <;> rfl

/-- C10: opening a text on a fresh `App` stores the text, and the words of the
index, the elements of `completions("")`, are exactly the words that the
extraction yields on that text: the fields that `strings.FieldsFunc` splits
off, which are the maximal letter runs of the text. -/
theorem didOpen_fresh_roundtrip (IsLetter : Rune → Bool) (t : Str) :
    (NewApp.textDocumentDidOpen IsLetter t).doc = t ∧
    (∀ w, w ∈ (NewApp.textDocumentDidOpen IsLetter t).completions []
      ↔ w ∈ letterRuns IsLetter t) ∧
    (∀ w, w ∈ (NewApp.textDocumentDidOpen IsLetter t).completions []
      ↔ w ∈ FieldsFunc t (fun r => !IsLetter r)) := by
  have h0 : StrictAsc ({ doc := t, knownWords := [] } : App).knownWords := List.Pairwise.nil
  have hs : StrictAsc (NewApp.textDocumentDidOpen IsLetter t).knownWords :=
    strictAsc_addWords _ _ h0
  have hm : ∀ w, w ∈ (NewApp.textDocumentDidOpen IsLetter t).completions []
      ↔ w ∈ FieldsFunc t (fun r => !IsLetter r) := by
    intro w
    rw [completions_nil _ hs]
    have := mem_addWords ({ doc := t, knownWords := [] } : App)
      (FieldsFunc t (fun r => !IsLetter r)) h0 w
    simpa [App.textDocumentDidOpen, NewApp, BTree.NewOrderedG] using this
  refine ⟨rfl, fun w => ?_, hm⟩
  rw [hm w, FieldsFunc_eq_letterRuns]

/-! ## Sessions: what the calls keep -/

theorem mem_ReplaceOrInsert_of_mem (w x : Str) (t : BTree) (hx : x ∈ t) :
    x ∈ BTree.ReplaceOrInsert w t := by
  induction t with
  | nil => simp at hx
  | cons k ks ih =>
    simp only [BTree.ReplaceOrInsert]
    split_ifs with h1 h2
    · exact List.mem_cons_of_mem _ hx
    · rcases List.mem_cons.1 hx with rfl | hx
      · exact List.mem_cons_self _ _
      · exact List.mem_cons_of_mem _ (ih hx)
    · have : w = k := strLess_connex (by simpa using h1) (by simpa using h2)
      subst this
      exact hx

theorem mem_addWords_of_mem (a : App) (ws : List Str) (x : Str) (hx : x ∈ a.knownWords) :
    x ∈ (a.addWords ws).knownWords := by
  unfold App.addWords
  simp only
  generalize a.knownWords = t at hx
  induction ws generalizing t with
  | nil => exact hx
  | cons w ws ih => exact ih _ (mem_ReplaceOrInsert_of_mem w x t hx)

theorem didChange_knownWords (IndexIn : Position → Str → Nat) (changes : List ContentChange)
    (a a1 : App) (h : a.textDocumentDidChange IndexIn changes = some a1) :
    a1.knownWords = a.knownWords := by
  induction changes generalizing a with
  | nil =>
    simp only [App.textDocumentDidChange, Option.some.injEq] at h
    rw [← h]
  | cons c cs ih =>
    simp only [App.textDocumentDidChange] at h
    cases hc : applyChange IndexIn a.doc c with
    | none => simp [hc] at h
    | some d =>
      simp only [hc] at h
      have := ih _ h
      simpa using this

theorem step_knownWords_mem (IndexIn : Position → Str → Nat) (IsLetter : Rune → Bool)
    (a a1 : App) (op : Op) (h : a.step IndexIn IsLetter op = some a1) (w : Str)
    (hw : w ∈ a.knownWords) : w ∈ a1.knownWords := by
  cases op with
  | OpenDocument text =>
    simp only [App.step, Option.some.injEq] at h
    subst h
    exact mem_addWords_of_mem _ _ w hw
  | ChangeDocument changes =>
    simp only [App.step] at h
    rw [didChange_knownWords IndexIn changes a a1 h]
    exact hw
  | Complete position =>
    simp only [App.step, App.handleCompletion, Option.map_map, Option.map_eq_some'] at h
    obtain ⟨_, _, rfl⟩ := h
    exact hw
  | addWords words =>
    simp only [App.step, Option.some.injEq] at h
    subst h
    exact mem_addWords_of_mem _ _ w hw

theorem step_strictAsc (IndexIn : Position → Str → Nat) (IsLetter : Rune → Bool)
    (a a1 : App) (op : Op) (h : a.step IndexIn IsLetter op = some a1)
    (hs : StrictAsc a.knownWords) : StrictAsc a1.knownWords := by
  cases op with
  | OpenDocument text =>
    simp only [App.step, Option.some.injEq] at h
    subst h
    exact strictAsc_addWords _ _ hs
  | ChangeDocument changes =>
    simp only [App.step] at h
    rw [didChange_knownWords IndexIn changes a a1 h]
    exact hs
  | Complete position =>
    simp only [App.step, App.handleCompletion, Option.map_map, Option.map_eq_some'] at h
    obtain ⟨_, _, rfl⟩ := h
    exact hs
  | addWords words =>
    simp only [App.step, Option.some.injEq] at h
    subst h
    exact strictAsc_addWords _ _ hs

theorem run_strictAsc (IndexIn : Position → Str → Nat) (IsLetter : Rune → Bool)
    (ops : List Op) (a a1 : App) (h : a.run IndexIn IsLetter ops = some a1)
    (hs : StrictAsc a.knownWords) : StrictAsc a1.knownWords := by
  induction ops generalizing a with
  | nil =>
    simp only [App.run, Option.some.injEq] at h
    subst h
    exact hs
  | cons op ops ih =>
    simp only [App.run] at h
    cases hstep : a.step IndexIn IsLetter op with
    | none => simp [hstep] at h
    | some a2 =>
      simp only [hstep] at h
      exact ih a2 h (step_strictAsc IndexIn IsLetter a a2 op hstep hs)

theorem reachable_strictAsc (IndexIn : Position → Str → Nat) (IsLetter : Rune → Bool)
    (ops : List Op) (a : App) (h : NewApp.run IndexIn IsLetter ops = some a) :
    StrictAsc a.knownWords :=
  run_strictAsc IndexIn IsLetter ops NewApp a h List.Pairwise.nil

/-- C11: the index never shrinks.  From every session state (the states
reached from `NewApp` among them), a word of the index is still in the index
after one more call, be it `textDocumentDidOpen`, `textDocumentDidChange`,
`textDocumentCompletion` or `addWords`. -/
theorem index_never_shrinks (IndexIn : Position → Str → Nat) (IsLetter : Rune → Bool)
    (op : Op) (a a1 : App) (w : Str)
    (hstep : a.step IndexIn IsLetter op = some a1) (hw : w ∈ a.knownWords) :
    w ∈ a1.knownWords :=
  step_knownWords_mem IndexIn IsLetter a a1 op hstep w hw

/-- Witness of C11: with `cat dog` opened on a fresh session, `cat` stays in
the index when a second document `x` is opened, and when an edit deletes the
characters 0-4. -/
theorem index_never_shrinks_witness :
    NewApp.run Position.IndexIn asciiIsLetter [.OpenDocument (bytes "cat dog")]
      = some { doc := bytes "cat dog", knownWords := [bytes "cat", bytes "dog"] } ∧
    bytes "cat" ∈ ({ doc := bytes "x", knownWords := [bytes "cat", bytes "dog", bytes "x"] }
      : App).knownWords ∧
    bytes "cat" ∈ ({ doc := bytes "dog", knownWords := [bytes "cat", bytes "dog"] }
      : App).knownWords :=
  ⟨by decide,
   index_never_shrinks Position.IndexIn asciiIsLetter (.OpenDocument (bytes "x"))
      { doc := bytes "cat dog", knownWords := [bytes "cat", bytes "dog"] }
      { doc := bytes "x", knownWords := [bytes "cat", bytes "dog", bytes "x"] }
      (bytes "cat") (by decide) (by decide),
   index_never_shrinks Position.IndexIn asciiIsLetter
      (.ChangeDocument [.TextDocumentContentChangeEvent ⟨⟨0, 0⟩, ⟨0, 4⟩⟩ []])
      { doc := bytes "cat dog", knownWords := [bytes "cat", bytes "dog"] }
      { doc := bytes "dog", knownWords := [bytes "cat", bytes "dog"] }
      (bytes "cat") (by decide) (by decide)⟩

theorem ReplaceOrInsert_of_mem (w : Str) (t : BTree) (ht : StrictAsc t) (hw : w ∈ t) :
    BTree.ReplaceOrInsert w t = t := by
  induction t with
  | nil => simp at hw
  | cons k ks ih =>
    obtain ⟨hk, hks⟩ := List.pairwise_cons.1 ht
    simp only [BTree.ReplaceOrInsert]
    split_ifs with h1 h2
    · exfalso
      rcases List.mem_cons.1 hw with rfl | hw
      · simp [strLess_irrefl] at h1
      · have := strLess_asymm (hk w hw)
        simp [h1] at this
    · rcases List.mem_cons.1 hw with rfl | hw
      · simp [strLess_irrefl] at h2
      · rw [ih hks hw]
    · have : w = k := strLess_connex (by simpa using h1) (by simpa using h2)
      rw [this]

theorem insertAll_of_subset (ws : List Str) (t : BTree) (ht : StrictAsc t)
    (hsub : ∀ w ∈ ws, w ∈ t) :
    ws.foldl (fun t word => BTree.ReplaceOrInsert word t) t = t := by
  induction ws with
  | nil => rfl
  | cons w ws ih =>
    simp only [List.foldl_cons]
    rw [ReplaceOrInsert_of_mem w t ht (hsub w (List.mem_cons_self _ _))]
    exact ih (fun x hx => hsub x (List.mem_cons_of_mem _ hx))

theorem addWords_of_subset (a : App) (ws : List Str) (ha : StrictAsc a.knownWords)
    (hsub : ∀ w ∈ ws, w ∈ a.knownWords) : a.addWords ws = a := by
  unfold App.addWords
  rw [insertAll_of_subset ws a.knownWords ha hsub]

theorem addWords_addWords (a : App) (ws : List Str) (ha : StrictAsc a.knownWords) :
    (a.addWords ws).addWords ws = a.addWords ws :=
  addWords_of_subset (a.addWords ws) ws (strictAsc_addWords a ws ha)
    (fun w hw => (mem_addWords a ws ha w).2 (Or.inl hw))

/-- C12: insertion is idempotent.  On the index left by any sequence of
`addWords` calls, the empty index included, adding a list twice leaves the
state, and so `completions(p)`, as adding it once does; and adding a word that
the index holds leaves the state and `completions(p)` as they were. -/
theorem addWords_idempotent (batches : List (List Str)) (ws : List Str) (p : Str) :
    ((afterInserts batches).addWords ws).addWords ws = (afterInserts batches).addWords ws ∧
    (((afterInserts batches).addWords ws).addWords ws).completions p
      = ((afterInserts batches).addWords ws).completions p ∧
    ∀ w : Str, w ∈ (afterInserts batches).knownWords →
      (afterInserts batches).addWords [w] = afterInserts batches ∧
      ((afterInserts batches).addWords [w]).completions p
        = (afterInserts batches).completions p := by
  have hs := strictAsc_afterInserts batches
  have h1 := addWords_addWords (afterInserts batches) ws hs
  refine ⟨h1, by rw [h1], ?_⟩
  intro w hw
  have h2 := addWords_of_subset (afterInserts batches) [w] hs
    (fun x hx => by rw [List.mem_singleton.1 hx]; exact hw)
  exact ⟨h2, by rw [h2]⟩

/-- Witness of C12: on the empty index the list `dog`, `emu` added twice; on
the index of `cat`, `dog` the word `cat`, which it holds, added again; the
prefix `d`. -/
theorem addWords_idempotent_witness :
    (((afterInserts []).addWords [bytes "dog", bytes "emu"]).addWords
        [bytes "dog", bytes "emu"]).completions (bytes "d")
      = ((afterInserts []).addWords [bytes "dog", bytes "emu"]).completions (bytes "d") ∧
    bytes "cat" ∈ (afterInserts [[bytes "cat", bytes "dog"]]).knownWords ∧
    ((afterInserts [[bytes "cat", bytes "dog"]]).addWords [bytes "cat"]).completions (bytes "d")
      = (afterInserts [[bytes "cat", bytes "dog"]]).completions (bytes "d") :=
  ⟨(addWords_idempotent [] [bytes "dog", bytes "emu"] (bytes "d")).2.1,
   by decide,
   ((addWords_idempotent [[bytes "cat", bytes "dog"]] [] (bytes "d")).2.2
      (bytes "cat") (by decide)).2⟩

/-! ## The completion handler -/

theorem textDocumentCompletion_eq (IndexIn : Position → Str → Nat) (IsLetter : Rune → Bool)
    (a : App) (position : Position) :
    a.textDocumentCompletion IndexIn IsLetter position
      = (a.completionPrefix IndexIn IsLetter position).map
          (fun pre => ((a.completions pre).map (fun word => ({ Label := word } : CompletionItem)),
            none)) := by
  unfold App.textDocumentCompletion App.completionPrefix
  cases a.wordStartUntil IndexIn IsLetter position with
  | none => rfl
  | some se =>
    obtain ⟨start, stop⟩ := se
    simp only
    cases slice a.doc start stop <;> rfl

/-- C16: when `textDocumentCompletion` gets its prefix `pre` from the slice,
it returns the nil error and one item for every word of `completions(pre)`, in
the same order: the list has the length of `completions(pre)`, the labels are
the words, and every field of an item other than `Label` is unset. -/
theorem completion_items (IndexIn : Position → Str → Nat) (IsLetter : Rune → Bool)
    (a : App) (position : Position) (pre : Str)
    (hpre : a.completionPrefix IndexIn IsLetter position = some pre) :
    ∃ items : List CompletionItem,
      a.textDocumentCompletion IndexIn IsLetter position = some (items, none) ∧
      items.length = (a.completions pre).length ∧
      items.map (fun item => item.Label) = a.completions pre ∧
      (∀ i : Nat, (items.get? i).map (fun item => item.Label) = (a.completions pre).get? i) ∧
      ∀ item ∈ items,
        item.Kind = none ∧ item.Tags = [] ∧ item.Detail = none ∧ item.Documentation = none ∧
        item.Deprecated = none ∧ item.Preselect = none ∧ item.SortText = none ∧
        item.FilterText = none ∧ item.InsertText = none ∧ item.InsertTextFormat = none ∧
        item.InsertTextMode = none ∧ item.TextEdit = none ∧ item.AdditionalTextEdits = [] ∧
        item.CommitCharacters = [] ∧ item.Command = none ∧ item.Data = none := by
  refine ⟨(a.completions pre).map (fun word => { Label := word }), ?_, ?_, ?_, ?_, ?_⟩
  · rw [textDocumentCompletion_eq, hpre]
    rfl
  · simp
  · simp [List.map_map, Function.comp_def]
  · intro i
    simp [List.get?_eq_getElem?, List.getElem?_map, Option.map_map, Function.comp_def]
  · intro item hitem
    obtain ⟨word, _, rfl⟩ := List.mem_map.1 hitem
    simp

/-- Witness of C16: `the quick brown fox` with the cursor at the end of the
text; the prefix is empty and the four words come back as four items. -/
theorem completion_items_witness :
    ∃ items : List CompletionItem,
      (NewApp.textDocumentDidOpen asciiIsLetter (bytes "the quick brown fox")).textDocumentCompletion
        Position.IndexIn asciiIsLetter ⟨0, 19⟩ = some (items, none) ∧
      items.map (fun item => item.Label)
        = [bytes "brown", bytes "fox", bytes "quick", bytes "the"] := by
  obtain ⟨items, h1, _, h3, _⟩ := completion_items Position.IndexIn asciiIsLetter
    (NewApp.textDocumentDidOpen asciiIsLetter (bytes "the quick brown fox")) ⟨0, 19⟩ []
    (by decide)
  exact ⟨items, h1, h3.trans (by decide)⟩

theorem mem_RUnlock_RLock (m : Mem) : m.RLock.RUnlock = m := by
  cases m
  simp [Mem.RLock, Mem.RUnlock]

theorem mem_completions_eq (m : Mem) (pre : Str) :
    m.completions pre = (m.app.completions pre, m) := by
  simp only [Mem.completions, mem_RUnlock_RLock]
  rfl

theorem mem_wordStartLoop_eq (IndexIn : Position → Str → Nat) (IsLetter : Rune → Bool)
    (line : Nat) (m : Mem) : ∀ (c start : Nat),
    Mem.wordStartLoop IndexIn IsLetter line c start m
      = (wordStartLoop IndexIn IsLetter m.app.doc line c start).map (fun r => (r, m)) := by
  intro c
  induction c with
  | zero =>
    intro start
    rfl
  | succ c ih =>
    intro start
    simp only [Mem.wordStartLoop, wordStartLoop]
    cases sliceFrom m.app.doc (IndexIn ⟨line, c + 1⟩ m.app.doc) with
    | none => rfl
    | some tail =>
      simp only
      split_ifs
      · rfl
      · rfl
      · exact ih _

theorem mem_wordStartUntil_eq (IndexIn : Position → Str → Nat) (IsLetter : Rune → Bool)
    (m : Mem) (p : Position) :
    m.wordStartUntil IndexIn IsLetter p
      = (m.app.wordStartUntil IndexIn IsLetter p).map (fun r => (r, m)) := by
  simp only [Mem.wordStartUntil, App.wordStartUntil, mem_wordStartLoop_eq]
  cases wordStartLoop IndexIn IsLetter m.app.doc p.Line p.Character (IndexIn p m.app.doc) <;> rfl

theorem mem_textDocumentCompletion_eq (IndexIn : Position → Str → Nat)
    (IsLetter : Rune → Bool) (m : Mem) (p : Position) :
    m.textDocumentCompletion IndexIn IsLetter p
      = (m.app.textDocumentCompletion IndexIn IsLetter p).map (fun r => (r, m)) := by
  simp only [Mem.textDocumentCompletion, App.textDocumentCompletion, mem_wordStartUntil_eq]
  cases m.app.wordStartUntil IndexIn IsLetter p with
  | none => rfl
  | some se =>
    obtain ⟨start, stop⟩ := se
    simp only [Option.map_some']
    cases slice m.app.doc start stop with
    | none => rfl
    | some pre =>
      simp only [mem_completions_eq, Option.map_some']

/-- C20: completion is read-only.  Run statement by statement on the memory
that holds the receiver, `completions`, `wordStartUntil` and
`textDocumentCompletion` return what they return as functions of the state and
hand the memory back as they got it: the document text and the index are not
written and the read lock taken by `completions` is released.  So the same
`textDocumentCompletion` call made again on the memory left behind returns the
same value. -/
theorem completion_read_only (IndexIn : Position → Str → Nat) (IsLetter : Rune → Bool)
    (m : Mem) (pre : Str) (p : Position) :
    m.completions pre = (m.app.completions pre, m) ∧
    m.wordStartUntil IndexIn IsLetter p
      = (m.app.wordStartUntil IndexIn IsLetter p).map (fun r => (r, m)) ∧
    m.textDocumentCompletion IndexIn IsLetter p
      = (m.app.textDocumentCompletion IndexIn IsLetter p).map (fun r => (r, m)) ∧
    m.app.handleCompletion IndexIn IsLetter p
      = (m.textDocumentCompletion IndexIn IsLetter p).map (fun x => (x.1, x.2.app)) ∧
    ∀ (r : List CompletionItem × Option Str) (m1 : Mem),
      m.textDocumentCompletion IndexIn IsLetter p = some (r, m1) →
      m1.app.doc = m.app.doc ∧ m1.app.knownWords = m.app.knownWords ∧
      m1.readLocks = m.readLocks ∧
      m1.textDocumentCompletion IndexIn IsLetter p = some (r, m1) := by
  have h3 := mem_textDocumentCompletion_eq IndexIn IsLetter m p
  refine ⟨mem_completions_eq m pre, mem_wordStartUntil_eq IndexIn IsLetter m p, h3, ?_, ?_⟩
  · rw [h3, App.handleCompletion, Option.map_map]
    rfl
  · intro r m1 h
    have h' := h
    rw [h3] at h'
    simp only [Option.map_eq_some', Prod.mk.injEq] at h'
    obtain ⟨r1, _, rfl, rfl⟩ := h'
    exact ⟨rfl, rfl, rfl, h⟩

/-- Witness of C20: `the quick brown fox` with the cursor at the end of the
text and no lock held; the first call returns the four words and the memory it
got, and so does the second. -/
theorem completion_read_only_witness :
    ({ app := NewApp.textDocumentDidOpen asciiIsLetter (bytes "the quick brown fox"),
       readLocks := 0 } : Mem).textDocumentCompletion Position.IndexIn asciiIsLetter ⟨0, 19⟩
      = some (([{ Label := bytes "brown" }, { Label := bytes "fox" }, { Label := bytes "quick" },
          { Label := bytes "the" }], none),
        { app := NewApp.textDocumentDidOpen asciiIsLetter (bytes "the quick brown fox"),
          readLocks := 0 }) ∧
    ({ app := NewApp.textDocumentDidOpen asciiIsLetter (bytes "the quick brown fox"),
       readLocks := 0 } : Mem).app.knownWords
      = [bytes "brown", bytes "fox", bytes "quick", bytes "the"] :=
  ⟨((completion_read_only Position.IndexIn asciiIsLetter
      { app := NewApp.textDocumentDidOpen asciiIsLetter (bytes "the quick brown fox"),
        readLocks := 0 } [] ⟨0, 19⟩).2.2.2.2
      ([{ Label := bytes "brown" }, { Label := bytes "fox" }, { Label := bytes "quick" },
          { Label := bytes "the" }], none)
      { app := NewApp.textDocumentDidOpen asciiIsLetter (bytes "the quick brown fox"),
        readLocks := 0 } (by decide)).2.2.2,
   by decide⟩

/-! ## The cursor token -/

theorem wordStartLoopCount_spec (IndexIn : Position → Str → Nat) (IsLetter : Rune → Bool)
    (doc : Str) (line stop top : Nat)
    (hbound : ∀ c, c ≤ top → IndexIn ⟨line, c⟩ doc ≤ doc.length)
    (hstop : ∀ c, c ≤ top → IndexIn ⟨line, c⟩ doc ≤ stop) :
    ∀ (c start count : Nat), c ≤ top → start ≤ stop →
      ∃ start1 count1,
        wordStartLoopCount IndexIn IsLetter doc line c start count = some (start1, count1) ∧
        wordStartLoop IndexIn IsLetter doc line c start = some start1 ∧
        start1 ≤ stop ∧ count1 ≤ count + c := by
  intro c
  induction c with
  | zero =>
    intro start count _ hs
    exact ⟨start, count, rfl, rfl, hs, le_refl _⟩
  | succ c ih =>
    intro start count hc hs
    have hb := hbound (c + 1) hc
    simp only [wordStartLoopCount, wordStartLoop, sliceFrom, hb, if_true]
    by_cases h1 : (DecodeLastRuneInString (doc.drop (IndexIn ⟨line, c + 1⟩ doc))).1 = RuneError
    · simp only [h1, if_true]
      exact ⟨start, count + 1, rfl, rfl, hs, by omega⟩
    · simp only [h1, if_false]
      by_cases h2 : (!IsLetter (DecodeLastRuneInString
          (doc.drop (IndexIn ⟨line, c + 1⟩ doc))).1) = true
      · simp only [h2, if_true]
        exact ⟨start, count + 1, rfl, rfl, hs, by omega⟩
      · simp only [h2]
        obtain ⟨s1, c1, e1, e2, e3, e4⟩ := ih (IndexIn ⟨line, c + 1⟩ doc) (count + 1)
          (Nat.le_of_succ_le hc) (hstop (c + 1) hc)
        exact ⟨s1, c1, e1, e2, e3, by omega⟩

/-- C19: when `IndexIn` resolves the columns up to the cursor's to offsets
within the text that do not decrease with the column, the loop of
`wordStartUntil` is entered at most `p.Character` times, `wordStartUntil`
returns `(start, end)` with `start <= end <= len(doc)`, and the slice
`doc[start:end]` of `textDocumentCompletion` is taken without a panic. -/
theorem wordStartUntil_in_bounds (IndexIn : Position → Str → Nat) (IsLetter : Rune → Bool)
    (a : App) (p : Position)
    (hbound : ∀ c, c ≤ p.Character → IndexIn ⟨p.Line, c⟩ a.doc ≤ a.doc.length)
    (hmono : ∀ c c1, c ≤ c1 → c1 ≤ p.Character →
      IndexIn ⟨p.Line, c⟩ a.doc ≤ IndexIn ⟨p.Line, c1⟩ a.doc) :
    ∃ start count : Nat,
      wordStartLoopCount IndexIn IsLetter a.doc p.Line p.Character (IndexIn p a.doc) 0
        = some (start, count) ∧
      count ≤ p.Character ∧
      a.wordStartUntil IndexIn IsLetter p = some (start, IndexIn p a.doc) ∧
      start ≤ IndexIn p a.doc ∧ IndexIn p a.doc ≤ a.doc.length ∧
      slice a.doc start (IndexIn p a.doc) = some ((a.doc.take (IndexIn p a.doc)).drop start) ∧
      a.textDocumentCompletion IndexIn IsLetter p
        = some ((a.completions ((a.doc.take (IndexIn p a.doc)).drop start)).map
            (fun word => { Label := word }), none) := by
  obtain ⟨line, character⟩ := p
  simp only at hbound hmono
  have hlen := hbound character (le_refl _)
  obtain ⟨start, count, e1, e2, e3, e4⟩ :=
    wordStartLoopCount_spec IndexIn IsLetter a.doc line (IndexIn ⟨line, character⟩ a.doc)
      character hbound (fun c hc => hmono c character hc (le_refl _)) character
      (IndexIn ⟨line, character⟩ a.doc) 0 (le_refl _) (le_refl _)
  have hw : a.wordStartUntil IndexIn IsLetter ⟨line, character⟩
      = some (start, IndexIn ⟨line, character⟩ a.doc) := by
    simp [App.wordStartUntil, e2]
  have hsl : slice a.doc start (IndexIn ⟨line, character⟩ a.doc)
      = some ((a.doc.take (IndexIn ⟨line, character⟩ a.doc)).drop start) := by
    simp [slice, e3, hlen]
  refine ⟨start, count, e1, (by show count ≤ character; omega), hw, e3, hlen, hsl, ?_⟩
  rw [textDocumentCompletion_eq]
  simp [App.completionPrefix, hw, hsl]

/-- Witness of C19: `the quick brown fox` with the cursor at line 0,
character 3; the columns 0..3 resolve to the offsets 0..3. -/
theorem wordStartUntil_in_bounds_witness :
    ∃ start count : Nat,
      wordStartLoopCount Position.IndexIn asciiIsLetter (bytes "the quick brown fox") 0 3 3 0
        = some (start, count) ∧
      count ≤ 3 ∧ start ≤ 3 ∧ 3 ≤ (bytes "the quick brown fox").length := by
  obtain ⟨start, count, h1, h2, _, h4, h5, _⟩ :=
    wordStartUntil_in_bounds Position.IndexIn asciiIsLetter
      { doc := bytes "the quick brown fox", knownWords := [] } ⟨0, 3⟩
      (by
        intro c hc
        have hc3 : c ≤ 3 := hc
        interval_cases c <;> decide)
      (by
        intro c c1 h h1
        have hc3 : c1 ≤ 3 := h1
        interval_cases c1 <;> interval_cases c <;> decide)
  exact ⟨start, count, h1, h2, h4, h5⟩

/-- C15: on the text `a`, `0xFF`, `b`, `c` with the cursor at line 0,
character 3, `wordStartUntil` returns `(1, 3)`: the prefix is `0xFF`, `b`.  The
byte `0xFF` does not decode, and the bytes before the candidate start 2, which
end in it, do not decode either, yet the scan goes past it. -/
theorem wordStartUntil_past_invalid_byte :
    ({ doc := [0x61, 0xFF, 0x62, 0x63], knownWords := [] } : App).wordStartUntil
        Position.IndexIn asciiIsLetter ⟨0, 3⟩ = some (1, 3) ∧
    ({ doc := [0x61, 0xFF, 0x62, 0x63], knownWords := [] } : App).completionPrefix
        Position.IndexIn asciiIsLetter ⟨0, 3⟩ = some [0xFF, 0x62] ∧
    DecodeRuneInString [0xFF, 0x62] = (RuneError, 1) ∧
    DecodeLastRuneInString (([0x61, 0xFF, 0x62, 0x63] : Str).take 2) = (RuneError, 1) ∧
    Position.IndexIn ⟨0, 2⟩ [0x61, 0xFF, 0x62, 0x63] = 2 := by
  decide

/-! ## The last code point of a suffix -/

theorem decodeFourth_width_le (s0 s1 s2 : Nat) (s : Str) : (decodeFourth s0 s1 s2 s).2 ≤ 4 := by
  cases s with
  | nil => simp [decodeFourth]
  | cons s3 rest =>
    simp only [decodeFourth]
    split_ifs <;> simp

theorem decodeThird_width_le (sz s0 s1 : Nat) (s : Str) : (decodeThird sz s0 s1 s).2 ≤ 4 := by
  cases s with
  | nil => simp [decodeThird]
  | cons s2 rest =>
    simp only [decodeThird]
    split_ifs
    · simp
    · simp
    · exact decodeFourth_width_le s0 s1 s2 rest

theorem decodeSecond_width_le (sz lo hi s0 : Nat) (s : Str) :
    (decodeSecond sz lo hi s0 s).2 ≤ 4 := by
  cases s with
  | nil => simp [decodeSecond]
  | cons s1 rest =>
    simp only [decodeSecond]
    split_ifs
    · simp
    · simp
    · exact decodeThird_width_le sz s0 s1 rest

theorem DecodeRuneInString_width_le (s : Str) : (DecodeRuneInString s).2 ≤ 4 := by
  cases s with
  | nil => simp [DecodeRuneInString]
  | cons b bs =>
    simp only [DecodeRuneInString]
    split_ifs
    all_goals first
      | exact decodeSecond_width_le _ _ _ b bs
      | simp

theorem DecodeRuneInString_continuation (b : Nat) (rest : Str) (h : RuneStart b = false) :
    DecodeRuneInString (b :: rest) = (RuneError, 1) := by
  simp only [RuneStart, Bool.not_eq_false', Bool.and_eq_true, decide_eq_true_eq] at h
  have h1 : ¬ b < 0x80 := by omega
  have h2 : b < 0xC2 ∨ 0xF4 < b := by omega
  simp only [DecodeRuneInString, h1, h2, if_true, if_false]

theorem DecodeRuneInString_single (b : Nat) (h : 0x80 ≤ b) :
    DecodeRuneInString [b] = (RuneError, 1) := by
  have h1 : ¬ b < 0x80 := by omega
  simp only [DecodeRuneInString, h1, if_false, List.length_nil]
  split_ifs <;> rfl

theorem lastRuneScan_lt (s : Str) (lim : Nat) : ∀ k, 0 < k → lastRuneScan s lim k < k := by
  intro k
  induction k with
  | zero => intro h; omega
  | succ n ih =>
    intro _
    simp only [lastRuneScan]
    split_ifs
    · omega
    · omega
    · cases n with
      | zero => simp [lastRuneScan]
      | succ m =>
        have := ih (by omega)
        omega

/-- The backward scan either stops on a byte that starts a code point, or it
finds none down to `lim` and stops one below. -/
theorem lastRuneScan_cases (s : Str) (lim : Nat) : ∀ k,
    (lim ≤ lastRuneScan s lim k ∧ lastRuneScan s lim k < k ∧
      RuneStart (s.getD (lastRuneScan s lim k) 0) = true) ∨
    (lastRuneScan s lim k = min k lim - 1 ∧
      ∀ j, lim ≤ j → j < k → RuneStart (s.getD j 0) = false) := by
  intro k
  induction k with
  | zero =>
    right
    simp [lastRuneScan]
  | succ n ih =>
    simp only [lastRuneScan]
    by_cases h1 : n < lim
    · right
      simp only [h1, if_true]
      refine ⟨by omega, ?_⟩
      intro j hj hjn
      omega
    · simp only [h1, if_false]
      by_cases h2 : RuneStart (s.getD n 0) = true
      · left
        simp only [h2, if_true]
        exact ⟨by omega, by omega, trivial⟩
      · have h2' : RuneStart (s.getD n 0) = false := by simpa using h2
        simp only [h2', Bool.false_eq_true, if_false]
        rcases ih with ⟨a1, a2, a3⟩ | ⟨b1, b2⟩
        · left
          exact ⟨a1, by omega, a3⟩
        · right
          refine ⟨by rw [b1]; omega, ?_⟩
          intro j hj hjn
          by_cases hjn' : j < n
          · exact b2 j hj hjn'
          · have : j = n := by omega
            subst this
            exact h2'

theorem getD_append_shift (pre t : Str) (j : Nat) :
    (pre ++ t).getD (j + pre.length) 0 = t.getD j 0 := by
  rw [List.getD_append_right _ _ _ _ (by omega)]
  simp

/-- A code-point start found by the scan of a suffix is the one the scan of the
whole string finds. -/
theorem lastRuneScan_append (pre t : Str) (limT limD : Nat) (hlim : limD ≤ limT + pre.length) :
    ∀ k, limT ≤ lastRuneScan t limT k → lastRuneScan t limT k < k →
      RuneStart (t.getD (lastRuneScan t limT k) 0) = true →
      lastRuneScan (pre ++ t) limD (k + pre.length) = lastRuneScan t limT k + pre.length := by
  intro k
  induction k with
  | zero => intro _ h; omega
  | succ n ih =>
    intro h1 h2 h3
    have hshift : n + 1 + pre.length = (n + pre.length) + 1 := by omega
    rw [hshift]
    simp only [lastRuneScan] at h1 h2 h3 ⊢
    rw [getD_append_shift]
    by_cases c1 : n < limT
    · simp only [c1, if_true] at h1
      omega
    · have c1' : ¬ n + pre.length < limD := by omega
      simp only [c1, c1', if_false] at h1 h2 h3 ⊢
      by_cases c2 : RuneStart (t.getD n 0) = true
      · simp only [c2, if_true]
      · simp only [c2] at h1 h2 h3 ⊢
        cases n with
        | zero =>
          simp only [lastRuneScan] at h3
          exact absurd h3 c2
        | succ m =>
          have := lastRuneScan_lt t limT (m + 1) (by omega)
          exact ih h1 this h3

theorem DecodeLastRuneInString_unfold (s : Str) (hs : s ≠ [])
    (hlast : ¬ s.getD (s.length - 1) 0 < 0x80) :
    DecodeLastRuneInString s
      = if lastRuneScan s (s.length - 4) (s.length - 1)
            + (DecodeRuneInString (s.drop (lastRuneScan s (s.length - 4) (s.length - 1)))).2
            ≠ s.length
        then (RuneError, 1)
        else DecodeRuneInString (s.drop (lastRuneScan s (s.length - 4) (s.length - 1))) := by
  have hlen : s.length ≠ 0 := by
    intro h
    exact hs (List.length_eq_zero.1 h)
  simp only [DecodeLastRuneInString, hlen, hlast, if_false]

/-- The last code point of a non-empty suffix is the last code point of the
whole string, unless the suffix ends in bytes that do not decode. -/
theorem DecodeLastRuneInString_append (pre t : Str) (ht : t ≠ []) :
    (DecodeLastRuneInString t).1 = RuneError ∨
    DecodeLastRuneInString (pre ++ t) = DecodeLastRuneInString t := by
  have hm : 0 < t.length := List.length_pos.2 ht
  have hlastEq : (pre ++ t).getD ((pre ++ t).length - 1) 0 = t.getD (t.length - 1) 0 := by
    have : (pre ++ t).length - 1 = (t.length - 1) + pre.length := by
      simp only [List.length_append]
      omega
    rw [this, getD_append_shift]
  by_cases hascii : t.getD (t.length - 1) 0 < 0x80
  · right
    have hne : (pre ++ t).length ≠ 0 := by simp only [List.length_append]; omega
    have hne' : t.length ≠ 0 := by omega
    simp only [DecodeLastRuneInString, hne, hne', if_false, hlastEq, hascii, if_true]
  · rw [DecodeLastRuneInString_unfold t ht hascii]
    rw [DecodeLastRuneInString_unfold (pre ++ t) (by simp [ht]) (by rw [hlastEq]; exact hascii)]
    rcases lastRuneScan_cases t (t.length - 4) (t.length - 1) with ⟨a1, a2, a3⟩ | ⟨b1, b2⟩
    · right
      have hk : (pre ++ t).length - 1 = (t.length - 1) + pre.length := by
        simp only [List.length_append]
        omega
      have hsc := lastRuneScan_append pre t (t.length - 4) ((pre ++ t).length - 4)
        (by simp only [List.length_append]; omega) (t.length - 1) a1 a2 a3
      rw [hk, hsc]
      have hdrop : (pre ++ t).drop (lastRuneScan t (t.length - 4) (t.length - 1) + pre.length)
          = t.drop (lastRuneScan t (t.length - 4) (t.length - 1)) := by
        rw [Nat.add_comm, ← List.drop_drop, List.drop_left]
      rw [hdrop]
      simp only [List.length_append]
      by_cases hc : lastRuneScan t (t.length - 4) (t.length - 1)
          + (DecodeRuneInString (t.drop (lastRuneScan t (t.length - 4) (t.length - 1)))).2
          = t.length
      · have hc' : lastRuneScan t (t.length - 4) (t.length - 1) + pre.length
            + (DecodeRuneInString (t.drop (lastRuneScan t (t.length - 4) (t.length - 1)))).2
            = pre.length + t.length := by omega
        simp [hc, hc']
      · have hc' : ¬ lastRuneScan t (t.length - 4) (t.length - 1) + pre.length
            + (DecodeRuneInString (t.drop (lastRuneScan t (t.length - 4) (t.length - 1)))).2
            = pre.length + t.length := by omega
        simp [hc, hc']
    · left
      have hw := DecodeRuneInString_width_le
        (t.drop (lastRuneScan t (t.length - 4) (t.length - 1)))
      by_cases h5 : 5 ≤ t.length
      · have hne : lastRuneScan t (t.length - 4) (t.length - 1)
            + (DecodeRuneInString (t.drop (lastRuneScan t (t.length - 4) (t.length - 1)))).2
            ≠ t.length := by
          rw [b1]
          have : min (t.length - 1) (t.length - 4) = t.length - 4 := by omega
          rw [this]
          have hw5 := DecodeRuneInString_width_le (t.drop (t.length - 4 - 1))
          omega
        simp only [hne, if_true, ne_eq, not_false_eq_true]
      · have hzero : lastRuneScan t (t.length - 4) (t.length - 1) = 0 := by
          rw [b1]
          omega
        rw [hzero, List.drop_zero]
        cases t with
        | nil => exact absurd rfl ht
        | cons b rest =>
          cases rest with
          | nil =>
            have hb : 0x80 ≤ b := by
              simp only [List.length_singleton, Nat.sub_self, List.getD_cons_zero] at hascii
              omega
            rw [DecodeRuneInString_single b hb]
            simp
          | cons b1 rest1 =>
            have hcont : RuneStart b = false := by
              have := b2 0 (by simp only [List.length_cons] at h5 ⊢; omega)
                (by simp only [List.length_cons]; omega)
              simpa using this
            rw [DecodeRuneInString_continuation b _ hcont]
            simp

theorem wordStartLoop_stops_at_once (IndexIn : Position → Str → Nat) (IsLetter : Rune → Bool)
    (doc : Str) (line c start : Nat)
    (hin : IndexIn ⟨line, c + 1⟩ doc ≤ doc.length)
    (hcase : IndexIn ⟨line, c + 1⟩ doc = doc.length ∨
      (DecodeLastRuneInString doc).1 = RuneError ∨
      IsLetter (DecodeLastRuneInString doc).1 = false) :
    wordStartLoop IndexIn IsLetter doc line (c + 1) start = some start := by
  simp only [wordStartLoop, sliceFrom, hin, if_true]
  by_cases htail : doc.drop (IndexIn ⟨line, c + 1⟩ doc) = []
  · rw [htail]
    simp [DecodeLastRuneInString]
  · have hne : IndexIn ⟨line, c + 1⟩ doc ≠ doc.length := by
      intro h
      exact htail (by rw [h, List.drop_length])
    rcases DecodeLastRuneInString_append (doc.take (IndexIn ⟨line, c + 1⟩ doc))
        (doc.drop (IndexIn ⟨line, c + 1⟩ doc)) htail with h | h
    · simp [h]
    · rw [List.take_append_drop] at h
      rw [← h]
      rcases hcase with h1 | h2 | h3
      · exact absurd h1 hne
      · simp [h2]
      · simp [h3]

/-- C18: in a state reached from `NewApp`, when the cursor resolves to an
offset within the text and either that offset is the end of the text or the
last code point of the whole text is `RuneError` or not a letter,
`wordStartUntil` returns `start = end`; the prefix is empty and
`textDocumentCompletion` returns one item for every word of the index, in
ascending order. -/
theorem wordStartUntil_start_eq_end (IndexIn : Position → Str → Nat) (IsLetter : Rune → Bool)
    (ops : List Op) (a : App) (p : Position)
    (hreach : NewApp.run IndexIn IsLetter ops = some a)
    (hin : IndexIn p a.doc ≤ a.doc.length)
    (hcase : IndexIn p a.doc = a.doc.length ∨
      (DecodeLastRuneInString a.doc).1 = RuneError ∨
      IsLetter (DecodeLastRuneInString a.doc).1 = false) :
    a.wordStartUntil IndexIn IsLetter p = some (IndexIn p a.doc, IndexIn p a.doc) ∧
    a.completionPrefix IndexIn IsLetter p = some [] ∧
    a.textDocumentCompletion IndexIn IsLetter p
      = some (a.knownWords.map (fun word => { Label := word }), none) ∧
    StrictAsc a.knownWords := by
  have hs := reachable_strictAsc IndexIn IsLetter ops a hreach
  obtain ⟨line, character⟩ := p
  have hw : a.wordStartUntil IndexIn IsLetter ⟨line, character⟩
      = some (IndexIn ⟨line, character⟩ a.doc, IndexIn ⟨line, character⟩ a.doc) := by
    cases character with
    | zero => simp [App.wordStartUntil, wordStartLoop]
    | succ c =>
      simp only [App.wordStartUntil]
      rw [wordStartLoop_stops_at_once IndexIn IsLetter a.doc line c _ hin hcase]
      rfl
  have hp : a.completionPrefix IndexIn IsLetter ⟨line, character⟩ = some [] := by
    simp [App.completionPrefix, hw, slice, hin]
  refine ⟨hw, hp, ?_, hs⟩
  rw [textDocumentCompletion_eq, hp]
  simp [completions_nil a hs]

/-- Witness of C18: `cat dog.` opened on a fresh session, cursor at line 0,
character 3; the text ends in a full stop, the prefix is empty and both words
come back. -/
theorem wordStartUntil_start_eq_end_witness :
    ({ doc := bytes "cat dog.", knownWords := [bytes "cat", bytes "dog"] } : App).wordStartUntil
        Position.IndexIn asciiIsLetter ⟨0, 3⟩ = some (3, 3) ∧
    ({ doc := bytes "cat dog.", knownWords := [bytes "cat", bytes "dog"] }
        : App).textDocumentCompletion Position.IndexIn asciiIsLetter ⟨0, 3⟩
      = some ([{ Label := bytes "cat" }, { Label := bytes "dog" }], none) :=
  ⟨(wordStartUntil_start_eq_end Position.IndexIn asciiIsLetter [.OpenDocument (bytes "cat dog.")]
      { doc := bytes "cat dog.", knownWords := [bytes "cat", bytes "dog"] } ⟨0, 3⟩
      (by decide) (by decide) (Or.inr (Or.inr (by decide)))).1,
   (wordStartUntil_start_eq_end Position.IndexIn asciiIsLetter [.OpenDocument (bytes "cat dog.")]
      { doc := bytes "cat dog.", knownWords := [bytes "cat", bytes "dog"] } ⟨0, 3⟩
      (by decide) (by decide) (Or.inr (Or.inr (by decide)))).2.2.1⟩

/-! ## Decoding a prefix that ends on a code point boundary -/

theorem decodeFourth_cases (s0 s1 s2 : Nat) (s : Str) :
    decodeFourth s0 s1 s2 s = (RuneError, 1) ∨ (decodeFourth s0 s1 s2 s).2 = 4 := by
  cases s with
  | nil => simp [decodeFourth]
  | cons s3 rest =>
    simp only [decodeFourth]
    split_ifs <;> simp

theorem decodeThird_cases (sz s0 s1 : Nat) (s : Str) :
    decodeThird sz s0 s1 s = (RuneError, 1) ∨ 3 ≤ (decodeThird sz s0 s1 s).2 := by
  cases s with
  | nil => simp [decodeThird]
  | cons s2 rest =>
    simp only [decodeThird]
    split_ifs
    · simp
    · simp
    · rcases decodeFourth_cases s0 s1 s2 rest with h | h
      · exact Or.inl h
      · exact Or.inr (by omega)

theorem decodeSecond_cases (sz lo hi s0 : Nat) (s : Str) :
    decodeSecond sz lo hi s0 s = (RuneError, 1) ∨ 2 ≤ (decodeSecond sz lo hi s0 s).2 := by
  cases s with
  | nil => simp [decodeSecond]
  | cons s1 rest =>
    simp only [decodeSecond]
    split_ifs
    · simp
    · simp
    · rcases decodeThird_cases sz s0 s1 rest with h | h
      · exact Or.inl h
      · exact Or.inr (by omega)

theorem decodeSecond_size (sz lo hi s0 : Nat) (s : Str) (hsz : sz ≤ 4) :
    decodeSecond sz lo hi s0 s = (RuneError, 1) ∨ sz ≤ (decodeSecond sz lo hi s0 s).2 := by
  cases s with
  | nil => simp [decodeSecond]
  | cons s1 rest =>
    simp only [decodeSecond]
    split_ifs with h1 h2
    · simp
    · right
      simpa using h2
    · cases rest with
      | nil => simp [decodeThird]
      | cons s2 rest2 =>
        simp only [decodeThird]
        split_ifs with h3 h4
        · simp
        · right
          simpa using h4
        · rcases decodeFourth_cases s0 s1 s2 rest2 with h | h
          · exact Or.inl h
          · exact Or.inr (by omega)

theorem decodeFourth_take (s0 s1 s2 : Nat) (s : Str) (j : Nat)
    (h : (decodeFourth s0 s1 s2 s).2 ≤ j + 3) :
    decodeFourth s0 s1 s2 (s.take j) = decodeFourth s0 s1 s2 s := by
  cases s with
  | nil => simp
  | cons s3 rest =>
    cases j with
    | zero =>
      rcases decodeFourth_cases s0 s1 s2 (s3 :: rest) with h1 | h1
      · rw [h1]
        simp [decodeFourth]
      · omega
    | succ j => simp [decodeFourth]

theorem decodeThird_take (sz s0 s1 : Nat) (s : Str) (j : Nat)
    (h : (decodeThird sz s0 s1 s).2 ≤ j + 2) :
    decodeThird sz s0 s1 (s.take j) = decodeThird sz s0 s1 s := by
  cases s with
  | nil => simp
  | cons s2 rest =>
    cases j with
    | zero =>
      rcases decodeThird_cases sz s0 s1 (s2 :: rest) with h1 | h1
      · rw [h1]
        simp [decodeThird]
      · omega
    | succ j =>
      simp only [List.take_succ_cons, decodeThird] at h ⊢
      split_ifs with h1 h2
      · rfl
      · rfl
      · simp only [h1, h2, if_false] at h
        exact decodeFourth_take s0 s1 s2 rest j (by omega)

theorem decodeSecond_take (sz lo hi s0 : Nat) (s : Str) (j : Nat)
    (h : (decodeSecond sz lo hi s0 s).2 ≤ j + 1) :
    decodeSecond sz lo hi s0 (s.take j) = decodeSecond sz lo hi s0 s := by
  cases s with
  | nil => simp
  | cons s1 rest =>
    cases j with
    | zero =>
      rcases decodeSecond_cases sz lo hi s0 (s1 :: rest) with h1 | h1
      · rw [h1]
        simp [decodeSecond]
      · omega
    | succ j =>
      simp only [List.take_succ_cons, decodeSecond] at h ⊢
      split_ifs with h1 h2
      · rfl
      · rfl
      · simp only [h1, h2, if_false] at h
        exact decodeThird_take sz s0 s1 rest j (by omega)

theorem decodeFourth_width_le_length (s0 s1 s2 : Nat) (s : Str) :
    (decodeFourth s0 s1 s2 s).2 ≤ s.length + 3 := by
  cases s with
  | nil => simp [decodeFourth]
  | cons s3 rest =>
    simp only [decodeFourth, List.length_cons]
    split_ifs <;> simp

theorem decodeThird_width_le_length (sz s0 s1 : Nat) (s : Str) :
    (decodeThird sz s0 s1 s).2 ≤ s.length + 2 := by
  cases s with
  | nil => simp [decodeThird]
  | cons s2 rest =>
    simp only [decodeThird, List.length_cons]
    split_ifs
    · simp
    · simp
    · have := decodeFourth_width_le_length s0 s1 s2 rest
      omega

theorem decodeSecond_width_le_length (sz lo hi s0 : Nat) (s : Str) :
    (decodeSecond sz lo hi s0 s).2 ≤ s.length + 1 := by
  cases s with
  | nil => simp [decodeSecond]
  | cons s1 rest =>
    simp only [decodeSecond, List.length_cons]
    split_ifs
    · simp
    · simp
    · have := decodeThird_width_le_length sz s0 s1 rest
      omega

/-- The width of the first code point is at most the length of the string. -/
theorem DecodeRuneInString_width_le_length (s : Str) : (DecodeRuneInString s).2 ≤ s.length := by
  cases s with
  | nil => simp [DecodeRuneInString]
  | cons b bs =>
    simp only [DecodeRuneInString, List.length_cons]
    split_ifs
    all_goals first
      | exact decodeSecond_width_le_length _ _ _ b bs
      | simp

/-- Decoding looks at the bytes of the first code point only: cutting the
string anywhere at or after the end of that code point does not change it. -/
theorem DecodeRuneInString_take (s : Str) (k : Nat) (hk : (DecodeRuneInString s).2 ≤ k) :
    DecodeRuneInString (s.take k) = DecodeRuneInString s := by
  cases s with
  | nil => simp
  | cons b bs =>
    have hpos := DecodeRuneInString_width_pos b bs
    cases k with
    | zero => omega
    | succ k =>
      simp only [List.take_succ_cons, DecodeRuneInString] at hk ⊢
      by_cases h1 : b < 0x80
      · simp only [h1, if_true]
      · by_cases h2 : b < 0xC2 ∨ 0xF4 < b
        · simp only [h1, h2, if_true, if_false]
        · simp only [h1, h2, if_false] at hk ⊢
          generalize hsz : (if b < 0xE0 then 2 else if b < 0xF0 then 3 else 4) = sz at hk ⊢
          generalize (if b = 0xE0 then 0xA0 else if b = 0xF0 then 0x90 else 0x80) = lo at hk ⊢
          generalize (if b = 0xED then 0x9F else if b = 0xF4 then 0x8F else 0xBF) = hi at hk ⊢
          have hsz4 : sz ≤ 4 := by
            rw [← hsz]
            split_ifs <;> omega
          by_cases h3 : bs.length + 1 < sz
          · have h3' : (bs.take k).length + 1 < sz := by
              simp only [List.length_take]
              omega
            simp only [h3, h3', if_true]
          · simp only [h3, if_false] at hk ⊢
            by_cases h4 : (bs.take k).length + 1 < sz
            · simp only [h4, if_true]
              rcases decodeSecond_size sz lo hi b bs hsz4 with h5 | h5
              · exact h5.symm
              · simp only [List.length_take] at h4
                omega
            · simp only [h4, if_false]
              exact decodeSecond_take sz lo hi b bs k hk

/-! ## The code points of a text and of its pieces -/

theorem codePointsLoop_nil (fuel : Nat) : codePointsLoop fuel [] = [] := by
  cases fuel <;> rfl

theorem codePointsLoop_fuel : ∀ (f1 f2 : Nat) (s : Str), s.length ≤ f1 → s.length ≤ f2 →
    codePointsLoop f1 s = codePointsLoop f2 s := by
  intro f1
  induction f1 with
  | zero =>
    intro f2 s h1 _
    have : s = [] := List.length_eq_zero.1 (Nat.le_zero.1 h1)
    subst this
    rw [codePointsLoop_nil, codePointsLoop_nil]
  | succ n ih =>
    intro f2 s h1 h2
    cases s with
    | nil => rw [codePointsLoop_nil, codePointsLoop_nil]
    | cons b bs =>
      cases f2 with
      | zero => simp at h2
      | succ m =>
        have hw := DecodeRuneInString_width_pos b bs
        simp only [codePointsLoop]
        have hlen : ((b :: bs).drop (DecodeRuneInString (b :: bs)).2).length ≤ bs.length := by
          simp only [List.length_drop, List.length_cons]
          omega
        simp only [List.length_cons] at h1 h2
        rw [ih m _ (by omega) (by omega)]

theorem codePoints_nil : codePoints [] = [] := rfl

theorem codePoints_of_ne (s : Str) (hs : s ≠ []) :
    codePoints s = ((DecodeRuneInString s).1, s.take (DecodeRuneInString s).2)
      :: codePoints (s.drop (DecodeRuneInString s).2) := by
  cases s with
  | nil => exact absurd rfl hs
  | cons b bs =>
    have hw := DecodeRuneInString_width_pos b bs
    unfold codePoints
    simp only [List.length_cons, codePointsLoop]
    rw [codePointsLoop_fuel bs.length _ _ (by simp only [List.length_drop, List.length_cons]; omega)
      (le_refl _)]

theorem encode_nil : encode [] = [] := rfl

theorem encode_cons (x : Rune × Str) (l : List (Rune × Str)) :
    encode (x :: l) = x.2 ++ encode l := by
  simp [encode]

theorem encode_append (l1 l2 : List (Rune × Str)) :
    encode (l1 ++ l2) = encode l1 ++ encode l2 := by
  simp [encode]

/-- The encodings of the code points of a text, put together, are the text. -/
theorem encode_codePoints (s : Str) : encode (codePoints s) = s := by
  generalize hn : s.length = n
  induction n using Nat.strong_induction_on generalizing s with
  | _ n ih =>
    cases s with
    | nil => rfl
    | cons b bs =>
      have hw := DecodeRuneInString_width_pos b bs
      rw [codePoints_of_ne _ (by simp), encode_cons]
      simp only
      rw [ih _ _ _ rfl, List.take_append_drop]
      rw [← hn]
      simp only [List.length_drop, List.length_cons]
      omega

/-- A sequence of code points that is the decoding of its own bytes splits into
two such sequences. -/
theorem decodes_append (A B : List (Rune × Str)) (h : codePoints (encode (A ++ B)) = A ++ B) :
    codePoints (encode A) = A ∧ codePoints (encode B) = B := by
  induction A with
  | nil => exact ⟨rfl, by simpa using h⟩
  | cons x A ih =>
    obtain ⟨r, e⟩ := x
    rw [List.cons_append, encode_cons] at h
    simp only at h
    have hs : e ++ encode (A ++ B) ≠ [] := by
      intro h0
      rw [h0, codePoints_nil] at h
      exact absurd h (by simp)
    rw [codePoints_of_ne _ hs] at h
    simp only [List.cons.injEq, Prod.mk.injEq] at h
    obtain ⟨⟨hr, he⟩, htail⟩ := h
    have hwl := DecodeRuneInString_width_le_length (e ++ encode (A ++ B))
    have helen : e.length = (DecodeRuneInString (e ++ encode (A ++ B))).2 := by
      have := congrArg List.length he
      simp only [List.length_take] at this
      omega
    have hdrop : (e ++ encode (A ++ B)).drop (DecodeRuneInString (e ++ encode (A ++ B))).2
        = encode (A ++ B) := by
      rw [← helen, List.drop_left]
    rw [hdrop] at htail
    obtain ⟨ihA, ihB⟩ := ih htail
    refine ⟨?_, ihB⟩
    have hepos : 0 < e.length := by
      cases hs' : e ++ encode (A ++ B) with
      | nil => exact absurd hs' hs
      | cons b bs =>
        have := DecodeRuneInString_width_pos b bs
        rw [hs'] at helen
        omega
    have hs2 : e ++ encode A ≠ [] := by
      intro h0
      have := congrArg List.length h0
      simp only [List.length_append, List.length_nil] at this
      omega
    have htake : (e ++ encode (A ++ B)).take (e ++ encode A).length = e ++ encode A := by
      rw [encode_append, ← List.append_assoc, List.take_left]
    have hdec : DecodeRuneInString (e ++ encode A) = DecodeRuneInString (e ++ encode (A ++ B)) := by
      have := DecodeRuneInString_take (e ++ encode (A ++ B)) (e ++ encode A).length
        (by rw [← helen]; simp)
      rw [htake] at this
      exact this
    rw [encode_cons]
    simp only
    rw [codePoints_of_ne _ hs2, hdec, ← helen, List.take_left, List.drop_left, ihA, hr]

/-! ## The shape of the extracted word list -/

/-- The runs of a sequence of code points, with and without a word under
construction: separators and words alternate, the words are the maximal runs of
letters and separators between two words are not empty. -/
theorem runsLoop_decomp (IsLetter : Rune → Bool) : ∀ cps : List (Rune × Str),
    (∃ (S0 : List (Rune × Str)) (P : List (List (Rune × Str) × List (Rune × Str))),
      cps = S0 ++ (P.map (fun p => p.1 ++ p.2)).flatten ∧
      runsLoop IsLetter cps none = P.map (fun p => encode p.1) ∧
      (∀ x ∈ S0, IsLetter x.1 = false) ∧
      (∀ p ∈ P, p.1 ≠ [] ∧ (∀ x ∈ p.1, IsLetter x.1 = true) ∧
        (∀ x ∈ p.2, IsLetter x.1 = false)) ∧
      (∀ p ∈ P.dropLast, p.2 ≠ [])) ∧
    (∀ cur : Str,
      ∃ (W S : List (Rune × Str)) (P : List (List (Rune × Str) × List (Rune × Str))),
      cps = W ++ (S ++ (P.map (fun p => p.1 ++ p.2)).flatten) ∧
      runsLoop IsLetter cps (some cur) = (cur ++ encode W) :: P.map (fun p => encode p.1) ∧
      (∀ x ∈ W, IsLetter x.1 = true) ∧ (∀ x ∈ S, IsLetter x.1 = false) ∧
      (P ≠ [] → S ≠ []) ∧
      (∀ p ∈ P, p.1 ≠ [] ∧ (∀ x ∈ p.1, IsLetter x.1 = true) ∧
        (∀ x ∈ p.2, IsLetter x.1 = false)) ∧
      (∀ p ∈ P.dropLast, p.2 ≠ [])) := by
  intro cps
  induction cps with
  | nil =>
    refine ⟨⟨[], [], by simp, by simp [runsLoop], by simp, by simp, by simp⟩, ?_⟩
    intro cur
    exact ⟨[], [], [], by simp, by simp [runsLoop, encode_nil], by simp, by simp, by simp,
      by simp, by simp⟩
  | cons x cps ih =>
    obtain ⟨ih1, ih2⟩ := ih
    obtain ⟨r, e⟩ := x
    by_cases hl : IsLetter r = true
    · constructor
      · obtain ⟨W, S, P, h1, h2, h3, h4, h5, h6, h7⟩ := ih2 e
        refine ⟨[], ((r, e) :: W, S) :: P, ?_, ?_, by simp, ?_, ?_⟩
        · simp [h1]
        · simp [runsLoop, hl, h2, encode_cons]
        · intro p hp
          rcases List.mem_cons.1 hp with rfl | hp
          · refine ⟨by simp, ?_, h4⟩
            intro y hy
            rcases List.mem_cons.1 hy with rfl | hy
            · exact hl
            · exact h3 y hy
          · exact h6 p hp
        · intro p hp
          by_cases hP : P = []
          · subst hP
            simp at hp
          · rw [List.dropLast_cons_of_ne_nil hP] at hp
            rcases List.mem_cons.1 hp with rfl | hp
            · exact h5 hP
            · exact h7 p hp
      · intro cur
        obtain ⟨W, S, P, h1, h2, h3, h4, h5, h6, h7⟩ := ih2 (cur ++ e)
        refine ⟨(r, e) :: W, S, P, by simp [h1], ?_, ?_, h4, h5, h6, h7⟩
        · simp [runsLoop, hl, h2, encode_cons]
        · intro y hy
          rcases List.mem_cons.1 hy with rfl | hy
          · exact hl
          · exact h3 y hy
    · have hl' : IsLetter r = false := by simpa using hl
      obtain ⟨S0, P, h1, h2, h3, h4, h5⟩ := ih1
      constructor
      · refine ⟨(r, e) :: S0, P, by simp [h1], by simp [runsLoop, hl', h2], ?_, h4, h5⟩
        intro y hy
        rcases List.mem_cons.1 hy with rfl | hy
        · exact hl'
        · exact h3 y hy
      · intro cur
        refine ⟨[], (r, e) :: S0, P, by simp [h1], by simp [runsLoop, hl', h2, encode_nil],
          by simp, ?_, by simp, h4, h5⟩
        intro y hy
        rcases List.mem_cons.1 hy with rfl | hy
        · exact hl'
        · exact h3 y hy

theorem encode_flatten_pairs (P : List (List (Rune × Str) × List (Rune × Str))) :
    encode (P.map (fun p => p.1 ++ p.2)).flatten
      = ((P.map (fun p => (encode p.1, encode p.2))).map (fun p => p.1 ++ p.2)).flatten := by
  induction P with
  | nil => rfl
  | cons p P ih =>
    simp only [List.map_cons, List.flatten_cons, encode_append, ih]

theorem decodes_flatten_pairs (P : List (List (Rune × Str) × List (Rune × Str)))
    (h : codePoints (encode (P.map (fun p => p.1 ++ p.2)).flatten)
      = (P.map (fun p => p.1 ++ p.2)).flatten) :
    ∀ p ∈ P, codePoints (encode p.1) = p.1 ∧ codePoints (encode p.2) = p.2 := by
  induction P with
  | nil => simp
  | cons q P ih =>
    simp only [List.map_cons, List.flatten_cons] at h
    obtain ⟨hq, hrest⟩ := decodes_append _ _ h
    obtain ⟨hq1, hq2⟩ := decodes_append _ _ hq
    intro p hp
    rcases List.mem_cons.1 hp with rfl | hp
    · exact ⟨hq1, hq2⟩
    · exact ih hrest p hp

theorem encode_ne_nil_of_decodes (L : List (Rune × Str)) (h : codePoints (encode L) = L)
    (hL : L ≠ []) : encode L ≠ [] := by
  intro h0
  rw [h0, codePoints_nil] at h
  exact hL h.symm

/-- C13: `strings.FieldsFunc` with the separator "not a letter" returns the
maximal letter runs of the text in order.  The text is
`sep0 ++ w1 ++ sep1 ++ ... ++ wn ++ sepn` with `w1..wn` the returned list, and
the code points of the text are those of the pieces; every word is non-empty
and decodes to letters only, every separator decodes to no letter, and the
separators that stand between two words are non-empty. -/
theorem FieldsFunc_maximal_runs (IsLetter : Rune → Bool) (text : Str) :
    ∃ (sep0 : Str) (pairs : List (Str × Str)),
      FieldsFunc text (fun r => !IsLetter r) = pairs.map Prod.fst ∧
      text = sep0 ++ (pairs.map (fun p => p.1 ++ p.2)).flatten ∧
      codePoints text
        = codePoints sep0 ++ (pairs.map (fun p => codePoints p.1 ++ codePoints p.2)).flatten ∧
      noLetter IsLetter sep0 ∧
      (∀ p ∈ pairs, p.1 ≠ [] ∧ onlyLetters IsLetter p.1 ∧ noLetter IsLetter p.2) ∧
      (∀ p ∈ pairs.dropLast, p.2 ≠ []) := by
  obtain ⟨S0, P, h1, h2, h3, h4, h5⟩ := (runsLoop_decomp IsLetter (codePoints text)).1
  have hdec : codePoints (encode (S0 ++ (P.map (fun p => p.1 ++ p.2)).flatten))
      = S0 ++ (P.map (fun p => p.1 ++ p.2)).flatten := by
    rw [← h1, encode_codePoints]
  obtain ⟨hS0, hflat⟩ := decodes_append _ _ hdec
  have hP := decodes_flatten_pairs P hflat
  refine ⟨encode S0, P.map (fun p => (encode p.1, encode p.2)), ?_, ?_, ?_, ?_, ?_, ?_⟩
  · rw [FieldsFunc_eq_letterRuns]
    unfold letterRuns
    rw [h2, List.map_map]
    rfl
  · rw [← encode_flatten_pairs, ← encode_append, ← h1, encode_codePoints]
  · rw [hS0, List.map_map]
    have : P.map ((fun p : Str × Str => codePoints p.1 ++ codePoints p.2) ∘
        (fun p : List (Rune × Str) × List (Rune × Str) => (encode p.1, encode p.2)))
        = P.map (fun p => p.1 ++ p.2) := by
      apply List.map_congr_left
      intro p hp
      simp only [Function.comp_apply]
      rw [(hP p hp).1, (hP p hp).2]
    rw [this]
    exact h1
  · intro x hx
    rw [hS0] at hx
    exact h3 x hx
  · intro p hp
    obtain ⟨q, hq, rfl⟩ := List.mem_map.1 hp
    obtain ⟨hq1, hq2⟩ := hP q hq
    obtain ⟨g1, g2, g3⟩ := h4 q hq
    refine ⟨encode_ne_nil_of_decodes q.1 hq1 g1, ?_, ?_⟩
    · intro x hx
      simp only at hx
      rw [hq1] at hx
      exact g2 x hx
    · intro x hx
      simp only at hx
      rw [hq2] at hx
      exact g3 x hx
  · intro p hp
    rw [← List.map_dropLast] at hp
    obtain ⟨q, hq, rfl⟩ := List.mem_map.1 hp
    exact encode_ne_nil_of_decodes q.2 (hP q (List.mem_of_mem_dropLast hq)).2 (h5 q hq)

/-! ## Edge cases of word extraction -/

theorem runsLoop_some_ne_nil (IsLetter : Rune → Bool) (cps : List (Rune × Str)) (cur : Str) :
    runsLoop IsLetter cps (some cur) ≠ [] := by
  induction cps generalizing cur with
  | nil => simp [runsLoop]
  | cons x cps ih =>
    obtain ⟨r, e⟩ := x
    by_cases hl : IsLetter r = true
    · simp only [runsLoop, hl, if_true]
      exact ih _
    · simp [runsLoop, hl]

theorem runsLoop_none_eq_nil (IsLetter : Rune → Bool) (cps : List (Rune × Str)) :
    runsLoop IsLetter cps none = [] ↔ ∀ x ∈ cps, IsLetter x.1 = false := by
  induction cps with
  | nil => simp [runsLoop]
  | cons x cps ih =>
    obtain ⟨r, e⟩ := x
    by_cases hl : IsLetter r = true
    · simp only [runsLoop, hl, if_true, List.mem_cons, forall_eq_or_imp]
      constructor
      · intro h
        exact absurd h (runsLoop_some_ne_nil IsLetter cps e)
      · intro h
        simp at h
    · have hl' : IsLetter r = false := by simpa using hl
      simp only [runsLoop, hl', List.mem_cons, forall_eq_or_imp, true_and]
      simpa using ih

theorem runsLoop_none_letter (IsLetter : Rune → Bool) (r : Rune) (e : Str)
    (rest : List (Rune × Str)) (h : IsLetter r = true) :
    runsLoop IsLetter ((r, e) :: rest) none = runsLoop IsLetter rest (some e) := by
  simp [runsLoop, h]

theorem runsLoop_none_other (IsLetter : Rune → Bool) (r : Rune) (e : Str)
    (rest : List (Rune × Str)) (h : IsLetter r = false) :
    runsLoop IsLetter ((r, e) :: rest) none = runsLoop IsLetter rest none := by
  simp [runsLoop, h]

theorem runsLoop_some_letter (IsLetter : Rune → Bool) (r : Rune) (e word : Str)
    (rest : List (Rune × Str)) (h : IsLetter r = true) :
    runsLoop IsLetter ((r, e) :: rest) (some word) = runsLoop IsLetter rest (some (word ++ e)) := by
  simp [runsLoop, h]

theorem runsLoop_some_other (IsLetter : Rune → Bool) (r : Rune) (e word : Str)
    (rest : List (Rune × Str)) (h : IsLetter r = false) :
    runsLoop IsLetter ((r, e) :: rest) (some word) = word :: runsLoop IsLetter rest none := by
  simp [runsLoop, h]

theorem runsLoop_letters (IsLetter : Rune → Bool) (W R : List (Rune × Str)) (cur : Str)
    (hW : ∀ x ∈ W, IsLetter x.1 = true) :
    runsLoop IsLetter (W ++ R) (some cur) = runsLoop IsLetter R (some (cur ++ encode W)) := by
  induction W generalizing cur with
  | nil => simp [encode_nil]
  | cons x W ih =>
    obtain ⟨r, e⟩ := x
    have hl : IsLetter r = true := hW (r, e) (List.mem_cons_self _ _)
    rw [List.cons_append, runsLoop_some_letter IsLetter r e cur _ hl,
      ih _ (fun y hy => hW y (List.mem_cons_of_mem _ hy)), encode_cons, List.append_assoc]

theorem runsLoop_letters_none (IsLetter : Rune → Bool) (W R : List (Rune × Str))
    (hne : W ≠ []) (hW : ∀ x ∈ W, IsLetter x.1 = true) :
    runsLoop IsLetter (W ++ R) none = runsLoop IsLetter R (some (encode W)) := by
  cases W with
  | nil => exact absurd rfl hne
  | cons x W =>
    obtain ⟨r, e⟩ := x
    have hl : IsLetter r = true := hW (r, e) (List.mem_cons_self _ _)
    rw [List.cons_append, runsLoop_none_letter IsLetter r e _ hl,
      runsLoop_letters IsLetter W R e (fun y hy => hW y (List.mem_cons_of_mem _ hy)),
      encode_cons]

theorem runsLoop_head (IsLetter : Rune → Bool) (R : List (Rune × Str)) (cur : Str)
    (hR : ∀ x ∈ R.head?, IsLetter x.1 = false) :
    (runsLoop IsLetter R (some cur)).head? = some cur := by
  cases R with
  | nil => simp [runsLoop]
  | cons y R =>
    obtain ⟨r, e⟩ := y
    have hl : IsLetter r = false := hR (r, e) (by simp)
    simp [runsLoop, hl]

theorem runsLoop_append_boundary (IsLetter : Rune → Bool) (M : List (Rune × Str)) :
    ∀ (L : List (Rune × Str)) (st : Option Str),
      (∀ x ∈ L.getLast?, IsLetter x.1 = false) → (L = [] → st = none) →
      runsLoop IsLetter (L ++ M) st = runsLoop IsLetter L st ++ runsLoop IsLetter M none := by
  intro L
  induction L with
  | nil =>
    intro st _ hst
    rw [hst rfl]
    simp [runsLoop]
  | cons x L ih =>
    intro st hlast _
    obtain ⟨r, e⟩ := x
    cases L with
    | nil =>
      have hl : IsLetter r = false := hlast (r, e) (by simp)
      cases st with
      | none => simp [runsLoop, hl]
      | some cur => simp [runsLoop, hl]
    | cons y L =>
      have hlast' : ∀ x ∈ (y :: L).getLast?, IsLetter x.1 = false := by
        intro z hz
        exact hlast z (by rw [List.getLast?_cons_cons]; exact hz)
      have hih := fun st => ih st hlast' (fun h => absurd h (by simp))
      cases st with
      | none =>
        by_cases hl : IsLetter r = true
        · rw [List.cons_append, runsLoop_none_letter IsLetter r e _ hl,
            runsLoop_none_letter IsLetter r e _ hl]
          exact hih _
        · have hl' : IsLetter r = false := by simpa using hl
          rw [List.cons_append, runsLoop_none_other IsLetter r e _ hl',
            runsLoop_none_other IsLetter r e _ hl']
          exact hih _
      | some cur =>
        by_cases hl : IsLetter r = true
        · rw [List.cons_append, runsLoop_some_letter IsLetter r e cur _ hl,
            runsLoop_some_letter IsLetter r e cur _ hl]
          exact hih _
        · have hl' : IsLetter r = false := by simpa using hl
          rw [List.cons_append, runsLoop_some_other IsLetter r e cur _ hl',
            runsLoop_some_other IsLetter r e cur _ hl', hih none]
          rfl

/-- C14: the extracted word list is empty exactly when the text decodes to no
letter; the empty text gives the empty list, and `textDocumentDidOpen` of a
text without letters leaves the index as it was.  A run of letters at the
start of the text that is followed by a non-letter or by the end of the text
is the first word, and a run of letters at the end of the text that is
preceded by a non-letter or by the start of the text is the last word. -/
theorem FieldsFunc_edge_cases (IsLetter : Rune → Bool) (text : Str) :
    (FieldsFunc text (fun r => !IsLetter r) = [] ↔ noLetter IsLetter text) ∧
    FieldsFunc [] (fun r => !IsLetter r) = [] ∧
    (noLetter IsLetter text →
      ∀ a : App, (a.textDocumentDidOpen IsLetter text).knownWords = a.knownWords) ∧
    (∀ W R : List (Rune × Str), codePoints text = W ++ R → W ≠ [] →
      (∀ x ∈ W, IsLetter x.1 = true) → (∀ x ∈ R.head?, IsLetter x.1 = false) →
      (FieldsFunc text (fun r => !IsLetter r)).head? = some (encode W)) ∧
    (∀ L W : List (Rune × Str), codePoints text = L ++ W → W ≠ [] →
      (∀ x ∈ W, IsLetter x.1 = true) → (∀ x ∈ L.getLast?, IsLetter x.1 = false) →
      (FieldsFunc text (fun r => !IsLetter r)).getLast? = some (encode W)) := by
  have hiff : FieldsFunc text (fun r => !IsLetter r) = [] ↔ noLetter IsLetter text := by
    rw [FieldsFunc_eq_letterRuns]
    unfold letterRuns noLetter
    exact runsLoop_none_eq_nil IsLetter (codePoints text)
  refine ⟨hiff, ?_, ?_, ?_, ?_⟩
  · rw [FieldsFunc_eq_letterRuns]
    rfl
  · intro hno a
    simp only [App.textDocumentDidOpen, App.addWords, hiff.2 hno, List.foldl_nil]
  · intro W R hWR hne hW hR
    rw [FieldsFunc_eq_letterRuns]
    unfold letterRuns
    rw [hWR, runsLoop_letters_none IsLetter W R hne hW]
    exact runsLoop_head IsLetter R (encode W) hR
  · intro L W hLW hne hW hL
    rw [FieldsFunc_eq_letterRuns]
    unfold letterRuns
    rw [hLW, runsLoop_append_boundary IsLetter W L none hL (fun _ => rfl)]
    have hWrun : runsLoop IsLetter W none = [encode W] := by
      have := runsLoop_letters_none IsLetter W [] hne hW
      simpa [runsLoop] using this
    rw [hWrun, List.getLast?_concat]

/-- Witness of C14: in `ab1cd` the run `ab` at offset 0 is the first word and
the run `cd` that ends the text is the last word; `12 34` has no letter and
opening it adds nothing to the index of `cat`. -/
theorem FieldsFunc_edge_cases_witness :
    (FieldsFunc (bytes "ab1cd") (fun r => !asciiIsLetter r)).head? = some (bytes "ab") ∧
    (FieldsFunc (bytes "ab1cd") (fun r => !asciiIsLetter r)).getLast? = some (bytes "cd") ∧
    FieldsFunc (bytes "12 34") (fun r => !asciiIsLetter r) = [] ∧
    (({ doc := [], knownWords := [bytes "cat"] } : App).textDocumentDidOpen asciiIsLetter
      (bytes "12 34")).knownWords = [bytes "cat"] :=
  ⟨(FieldsFunc_edge_cases asciiIsLetter (bytes "ab1cd")).2.2.2.1
      [(0x61, [0x61]), (0x62, [0x62])] [(0x31, [0x31]), (0x63, [0x63]), (0x64, [0x64])]
      (by decide) (by decide) (by decide) (by decide),
   (FieldsFunc_edge_cases asciiIsLetter (bytes "ab1cd")).2.2.2.2
      [(0x61, [0x61]), (0x62, [0x62]), (0x31, [0x31])] [(0x63, [0x63]), (0x64, [0x64])]
      (by decide) (by decide) (by decide) (by decide),
   (FieldsFunc_edge_cases asciiIsLetter (bytes "12 34")).1.2 (by decide),
   (FieldsFunc_edge_cases asciiIsLetter (bytes "12 34")).2.2.1 (by decide)
      { doc := [], knownWords := [bytes "cat"] }⟩

end Wordlsp
